import Mathlib

set_option maxRecDepth 8000

/-!
Verification development for the `dynamic-tables` todoitem table controller.

The controller (src/todoitem/index.js, final revision) serves a CRUD resource
backed by DocumentDB.  JavaScript objects are modelled as association lists of
`String` keys and `JVal` values; object mutation is threaded explicitly (the
JS functions mutate their argument in place and return the same object, so a
caller reading a field of the original object after a call reads the mutated
state).  The external `moment` library calls are modelled by executable
UTC timestamp codecs over the canonical ISO-8601 extended format with
four-digit years 1970-9999 (the DocumentDB `_ts` range exercised by this
service), and `Buffer(..).toString(base64)` by an executable base64 codec
over byte lists.
-/

/-- A JavaScript field value as used by the controller: strings, numbers
(DocumentDB `_ts` values are non-negative integers), and booleans. -/
inductive JVal where
  | str (s : String)
  | num (n : Nat)
  | bool (b : Bool)
  deriving DecidableEq

/-- A JavaScript object: an association list of fields (keys are unique in
real objects; all operations below use first-match semantics). -/
abbrev JDoc := List (String × JVal)

/-- `obj[k]` / `obj.k`: `none` models `undefined`. -/
def docGet (d : JDoc) (k : String) : Option JVal :=
  match d with
  | [] => none
  | (k', v) :: rest => if k' = k then some v else docGet rest k

/-- `obj.k = v`: update in place if the key exists, else append. -/
def docSet (d : JDoc) (k : String) (v : JVal) : JDoc :=
  match d with
  | [] => [(k, v)]
  | (k', v') :: rest => if k' = k then (k, v) :: rest else (k', v') :: docSet rest k v

/-- `delete obj.k`. -/
def docDel (d : JDoc) (k : String) : JDoc :=
  match d with
  | [] => []
  | (k', v') :: rest => if k' = k then docDel rest k else (k', v') :: docDel rest k

theorem docGet_docSet_same (d : JDoc) (k : String) (v : JVal) :
    docGet (docSet d k v) k = some v := by
  induction d with
  | nil => simp [docSet, docGet]
  | cons hd tl ih =>
    obtain ⟨k', v'⟩ := hd
    by_cases h : k' = k <;> simp [docSet, docGet, h, ih]

theorem docGet_docSet_other (d : JDoc) (k k' : String) (v : JVal) (h : k' ≠ k) :
    docGet (docSet d k v) k' = docGet d k' := by
  induction d with
  | nil => simp [docSet, docGet, Ne.symm h]
  | cons hd tl ih =>
    obtain ⟨k₀, v₀⟩ := hd
    by_cases h₀ : k₀ = k
    · subst h₀
      simp [docSet, docGet, Ne.symm h, h]
    · by_cases h₁ : k₀ = k' <;> simp [docSet, docGet, h₀, h₁, h, ih]

theorem docGet_docDel_same (d : JDoc) (k : String) :
    docGet (docDel d k) k = none := by
  induction d with
  | nil => simp [docDel, docGet]
  | cons hd tl ih =>
    obtain ⟨k₀, v₀⟩ := hd
    by_cases h : k₀ = k <;> simp [docDel, docGet, h, ih]

theorem docGet_docDel_other (d : JDoc) (k k' : String) (h : k' ≠ k) :
    docGet (docDel d k) k' = docGet d k' := by
  induction d with
  | nil => simp [docDel, docGet]
  | cons hd tl ih =>
    obtain ⟨k₀, v₀⟩ := hd
    by_cases h₀ : k₀ = k
    · subst h₀
      simp [docDel, docGet, Ne.symm h, ih]
    · by_cases h₁ : k₀ = k' <;> simp [docDel, docGet, h₀, h₁, h, ih]

/-! ### Calendar arithmetic (model of the moment library's UTC epoch conversions)

Proleptic Gregorian calendar over the years 1970-9999, all in `Nat`
(epoch seconds are non-negative in this range, matching DocumentDB `_ts`). -/

/-- Gregorian leap year. -/
def isLeap (y : Nat) : Bool :=
  y % 4 == 0 && (y % 100 != 0 || y % 400 == 0)

/-- Length of year `y` in days. -/
def yearLen (y : Nat) : Nat := if isLeap y then 366 else 365

/-- The twelve month lengths of year `y`. -/
def monthDays (y : Nat) : List Nat :=
  [31, if isLeap y then 29 else 28, 31, 30, 31, 30, 31, 31, 30, 31, 30, 31]

/-- Days in month `m` (1-12) of year `y`. -/
def daysInMonth (y m : Nat) : Nat := (monthDays y).getD (m - 1) 31

/-- Days in the years 1970, 1971, ..., 1969 + n (i.e. days from 1970-01-01
to the start of year 1970 + n). -/
def dBY : Nat → Nat
  | 0 => 0
  | n + 1 => dBY n + yearLen (1970 + n)

/-- Day of year (0-based) of the date `(y, m, d)`. -/
def doyOf (y m d : Nat) : Nat := ((monthDays y).take (m - 1)).sum + (d - 1)

/-- Days from 1970-01-01 to the date `(y, m, d)` (0 for 1970-01-01). -/
def daysFromCivil (y m d : Nat) : Nat := dBY (y - 1970) + doyOf y m d

/-- Find the year containing day `z`, scanning from year `y` upward. -/
def findYear : Nat → Nat → Nat → Nat × Nat
  | 0, y, z => (y, z)
  | fuel + 1, y, z => if z < yearLen y then (y, z) else findYear fuel (y + 1) (z - yearLen y)

/-- Find the month containing day-of-year `z`, scanning the month lengths. -/
def findMonth : List Nat → Nat → Nat → Nat × Nat
  | [], m, z => (m, z)
  | len :: rest, m, z => if z < len then (m, z) else findMonth rest (m + 1) (z - len)

/-- Inverse of `daysFromCivil`: the date `(y, m, d)` of day `z` since
1970-01-01 (for days up to the year 9999). -/
def civilFromDays (z : Nat) : Nat × Nat × Nat :=
  let yr := findYear 8030 1970 z
  let mr := findMonth (monthDays yr.1) 1 yr.2
  (yr.1, mr.1, mr.2 + 1)

/-- Sum of the year lengths of `y`, `y + 1`, ..., `y + k - 1`. -/
def sumYears (y : Nat) : Nat → Nat
  | 0 => 0
  | k + 1 => yearLen y + sumYears (y + 1) k

theorem sumYears_succ_right (y k : Nat) :
    sumYears y (k + 1) = sumYears y k + yearLen (y + k) := by
  induction k generalizing y with
  | zero => simp [sumYears]
  | succ k ih =>
    rw [show k + 1 + 1 = (k + 1) + 1 from rfl, sumYears, ih (y + 1), sumYears,
      show y + 1 + k = y + (k + 1) by omega]
    omega

theorem dBY_eq_sumYears (n : Nat) : dBY n = sumYears 1970 n := by
  induction n with
  | zero => rfl
  | succ n ih => rw [dBY, ih, sumYears_succ_right]

theorem findYear_spec (k : Nat) :
    ∀ fuel y r, k ≤ fuel → r < yearLen (y + k) →
      findYear fuel y (sumYears y k + r) = (y + k, r) := by
  induction k with
  | zero =>
    intro fuel y r _ hr
    cases fuel with
    | zero => simp [findYear, sumYears]
    | succ fuel => simp [findYear, sumYears] at hr ⊢; omega
  | succ k ih =>
    intro fuel y r hk hr
    cases fuel with
    | zero => omega
    | succ fuel =>
      have h1 : sumYears y (k + 1) + r = yearLen y + (sumYears (y + 1) k + r) := by
        rw [sumYears]; omega
      rw [h1, findYear]
      have h2 : ¬ (yearLen y + (sumYears (y + 1) k + r) < yearLen y) := by omega
      simp only [if_neg h2]
      have h3 : yearLen y + (sumYears (y + 1) k + r) - yearLen y
          = sumYears (y + 1) k + r := by omega
      rw [h3]
      have h4 : y + 1 + k = y + (k + 1) := by omega
      rw [ih fuel (y + 1) r (by omega) (by rw [h4]; exact hr), h4]

theorem findMonth_spec (pre : List Nat) :
    ∀ post m r len, r < len →
      findMonth (pre ++ len :: post) m (pre.sum + r) = (m + pre.length, r) := by
  induction pre with
  | nil => intro post m r len hr; simp [findMonth, hr]
  | cons hd tl ih =>
    intro post m r len hr
    have h2 : ¬ (hd + (tl.sum + r) < hd) := by omega
    simp only [List.cons_append, findMonth, List.sum_cons, List.append_eq]
    rw [show hd + tl.sum + r = hd + (tl.sum + r) by omega]
    simp only [if_neg h2]
    rw [show hd + (tl.sum + r) - hd = tl.sum + r by omega, ih post (m + 1) r len hr]
    simp only [List.length_cons]
    rw [show m + 1 + tl.length = m + (tl.length + 1) by omega]

theorem monthDays_sum (y : Nat) : (monthDays y).sum = yearLen y := by
  cases h : isLeap y <;> simp [monthDays, yearLen, h]

theorem monthDays_length (y : Nat) : (monthDays y).length = 12 := by
  simp [monthDays]

theorem monthDecomp (y m : Nat) (hm1 : 1 ≤ m) (hm2 : m ≤ 12) :
    monthDays y =
      (monthDays y).take (m - 1) ++ daysInMonth y m :: (monthDays y).drop m := by
  interval_cases m <;> rfl

theorem findMonth_doy (y m d : Nat) (hm1 : 1 ≤ m) (hm2 : m ≤ 12)
    (hd1 : 1 ≤ d) (hd2 : d ≤ daysInMonth y m) :
    findMonth (monthDays y) 1 (doyOf y m d) = (m, d - 1) := by
  have hdec := monthDecomp y m hm1 hm2
  have hlen : ((monthDays y).take (m - 1)).length = m - 1 := by
    rw [List.length_take, monthDays_length]; omega
  have hspec := findMonth_spec ((monthDays y).take (m - 1)) ((monthDays y).drop m)
    1 (d - 1) (daysInMonth y m) (by omega)
  rw [← hdec] at hspec
  rw [doyOf, hspec, hlen]
  rw [show 1 + (m - 1) = m by omega]

theorem doyOf_lt (y m d : Nat) (hm1 : 1 ≤ m) (hm2 : m ≤ 12)
    (hd1 : 1 ≤ d) (hd2 : d ≤ daysInMonth y m) :
    doyOf y m d < yearLen y := by
  have hdec := monthDecomp y m hm1 hm2
  have hsum : (monthDays y).sum = yearLen y := monthDays_sum y
  rw [hdec, List.sum_append, List.sum_cons] at hsum
  rw [doyOf]
  omega

/-- A calendar date accepted by the model: years 1970-9999. -/
def validDate (y m d : Nat) : Prop :=
  1970 ≤ y ∧ y ≤ 9999 ∧ 1 ≤ m ∧ m ≤ 12 ∧ 1 ≤ d ∧ d ≤ daysInMonth y m

theorem civilFromDays_daysFromCivil (y m d : Nat) (h : validDate y m d) :
    civilFromDays (daysFromCivil y m d) = (y, m, d) := by
  obtain ⟨hy1, hy2, hm1, hm2, hd1, hd2⟩ := h
  have hdoy : doyOf y m d < yearLen (1970 + (y - 1970)) := by
    rw [show 1970 + (y - 1970) = y by omega]
    exact doyOf_lt y m d hm1 hm2 hd1 hd2
  have hyr := findYear_spec (y - 1970) 8030 1970 (doyOf y m d) (by omega) hdoy
  rw [show 1970 + (y - 1970) = y by omega] at hyr
  rw [civilFromDays, daysFromCivil, dBY_eq_sumYears, hyr]
  simp only
  rw [findMonth_doy y m d hm1 hm2 hd1 hd2]
  rw [show d - 1 + 1 = d by omega]

/-! ### Digits and the ISO-8601 second-precision format -/

/-- Decimal digit to character (digits ≥ 10 never arise; `0` keeps the
image inside the digit characters). -/
def digitChar (n : Nat) : Char :=
  if n = 1 then '1' else if n = 2 then '2' else if n = 3 then '3'
  else if n = 4 then '4' else if n = 5 then '5' else if n = 6 then '6'
  else if n = 7 then '7' else if n = 8 then '8' else if n = 9 then '9' else '0'

/-- Character to decimal digit. -/
def dval (c : Char) : Option Nat :=
  if c = '0' then some 0 else if c = '1' then some 1 else if c = '2' then some 2
  else if c = '3' then some 3 else if c = '4' then some 4 else if c = '5' then some 5
  else if c = '6' then some 6 else if c = '7' then some 7 else if c = '8' then some 8
  else if c = '9' then some 9 else none

theorem dval_spec (c : Char) (v : Nat) (h : dval c = some v) :
    v ≤ 9 ∧ digitChar v = c := by
  unfold dval at h
  split_ifs at h with h0 h1 h2 h3 h4 h5 h6 h7 h8 h9
  · injection h with h; subst h; subst h0; decide
  · injection h with h; subst h; subst h1; decide
  · injection h with h; subst h; subst h2; decide
  · injection h with h; subst h; subst h3; decide
  · injection h with h; subst h; subst h4; decide
  · injection h with h; subst h; subst h5; decide
  · injection h with h; subst h; subst h6; decide
  · injection h with h; subst h; subst h7; decide
  · injection h with h; subst h; subst h8; decide
  · injection h with h; subst h; subst h9; decide

/-- Two-digit zero-padded rendering. -/
def pad2 (n : Nat) : List Char := [digitChar (n / 10), digitChar (n % 10)]

/-- Four-digit zero-padded rendering. -/
def pad4 (n : Nat) : List Char :=
  [digitChar (n / 1000), digitChar (n / 100 % 10), digitChar (n / 10 % 10),
    digitChar (n % 10)]

/-- The second-precision UTC ISO-8601 rendering
`YYYY-MM-DDTHH:MM:SS.000Z` (the shape `moment.unix(..).toISOString()`
produces for whole seconds). -/
def fmtDT (y mo d h mi s : Nat) : List Char :=
  pad4 y ++ '-' :: pad2 mo ++ '-' :: pad2 d ++ 'T' :: pad2 h ++ ':' :: pad2 mi ++
    ':' :: pad2 s ++ ['.', '0', '0', '0', 'Z']

/-- `decodeTimestamp`: epoch seconds to ISO-8601 text, the model of
`moment.unix(seconds).toISOString()`. -/
def decodeTimestamp (n : Nat) : List Char :=
  let c := civilFromDays (n / 86400)
  fmtDT c.1 c.2.1 c.2.2 (n % 86400 / 3600) (n % 3600 / 60) (n % 60)

/-- A parsed calendar datetime (second precision). -/
structure DT where
  year : Nat
  month : Nat
  day : Nat
  hour : Nat
  minute : Nat
  second : Nat
  deriving DecidableEq

/-- Epoch seconds of a datetime. -/
def dtToEpoch (t : DT) : Nat :=
  daysFromCivil t.year t.month t.day * 86400 + t.hour * 3600 + t.minute * 60 + t.second

/-- Two decimal digits. -/
def d2 (a b : Char) : Option Nat := do
  let x ← dval a
  let y ← dval b
  pure (10 * x + y)

/-- Four decimal digits. -/
def d4 (a b c d : Char) : Option Nat := do
  let x ← dval a
  let y ← dval b
  let z ← dval c
  let w ← dval d
  pure (1000 * x + 100 * y + 10 * z + w)

/-- Accepted tails after the seconds field: nothing, `Z`, or a millisecond
fraction `.ddd` with optional `Z`. -/
def tailOk : List Char → Bool
  | [] => true
  | ['Z'] => true
  | ['.', a, b, c] => (dval a).isSome && (dval b).isSome && (dval c).isSome
  | ['.', a, b, c, 'Z'] => (dval a).isSome && (dval b).isSome && (dval c).isSome
  | _ => false

/-- `moment(text)` (UTC model): parse an ISO-8601 datetime
`YYYY-MM-DDTHH:MM:SS[.mmm][Z]`, validating every field; `none` models an
invalid moment. -/
def parseISO : List Char → Option DT
  | y1 :: y2 :: y3 :: y4 :: '-' :: m1 :: m2 :: '-' :: dd1 :: dd2 :: 'T' ::
      h1 :: h2 :: ':' :: n1 :: n2 :: ':' :: s1 :: s2 :: rest =>
    match d4 y1 y2 y3 y4, d2 m1 m2, d2 dd1 dd2, d2 h1 h2, d2 n1 n2, d2 s1 s2 with
    | some y, some mo, some d, some h, some mi, some s =>
      if 1970 ≤ y ∧ y ≤ 9999 ∧ 1 ≤ mo ∧ mo ≤ 12 ∧ 1 ≤ d ∧ d ≤ daysInMonth y mo ∧
          h ≤ 23 ∧ mi ≤ 59 ∧ s ≤ 59 ∧ tailOk rest then
        some ⟨y, mo, d, h, mi, s⟩
      else none
    | _, _, _, _, _, _ => none
  | _ => none

/-- `moment(text).unix()` (UTC model): ISO-8601 text to epoch seconds. -/
def encodeTimestamp (s : List Char) : Option Nat := (parseISO s).map dtToEpoch

theorem pad2_d2 (a b : Char) (v : Nat) (h : d2 a b = some v) :
    pad2 v = [a, b] ∧ v ≤ 99 := by
  unfold d2 at h
  cases ha : dval a with
  | none => rw [ha] at h; simp at h
  | some x =>
    rw [ha] at h
    cases hb : dval b with
    | none => rw [hb] at h; simp at h
    | some y =>
      rw [hb] at h
      simp at h
      obtain ⟨hx, hca⟩ := dval_spec a x ha
      obtain ⟨hy, hcb⟩ := dval_spec b y hb
      constructor
      · rw [pad2, show v / 10 = x by omega, show v % 10 = y by omega, hca, hcb]
      · omega

theorem pad4_d4 (a b c d : Char) (v : Nat) (h : d4 a b c d = some v) :
    pad4 v = [a, b, c, d] ∧ v ≤ 9999 := by
  unfold d4 at h
  cases ha : dval a with
  | none => rw [ha] at h; simp at h
  | some x =>
    rw [ha] at h
    cases hb : dval b with
    | none => rw [hb] at h; simp at h
    | some y =>
      rw [hb] at h
      cases hc : dval c with
      | none => rw [hc] at h; simp at h
      | some z =>
        rw [hc] at h
        cases hd : dval d with
        | none => rw [hd] at h; simp at h
        | some w =>
          rw [hd] at h
          simp at h
          obtain ⟨hx, hca⟩ := dval_spec a x ha
          obtain ⟨hy, hcb⟩ := dval_spec b y hb
          obtain ⟨hz, hcc⟩ := dval_spec c z hc
          obtain ⟨hw, hcd⟩ := dval_spec d w hd
          constructor
          · rw [pad4, show v / 1000 = x by omega, show v / 100 % 10 = y by omega,
              show v / 10 % 10 = z by omega, show v % 10 = w by omega, hca, hcb, hcc, hcd]
          · omega

theorem decodeTimestamp_dtToEpoch (y mo d h mi s : Nat) (hv : validDate y mo d)
    (hh : h ≤ 23) (hmi : mi ≤ 59) (hs : s ≤ 59) :
    decodeTimestamp (dtToEpoch ⟨y, mo, d, h, mi, s⟩) = fmtDT y mo d h mi s := by
  have hcd := civilFromDays_daysFromCivil y mo d hv
  unfold dtToEpoch decodeTimestamp
  simp only
  rw [show daysFromCivil y mo d * 86400 + h * 3600 + mi * 60 + s =
        daysFromCivil y mo d * 86400 + (h * 3600 + mi * 60 + s) by omega]
  rw [show (daysFromCivil y mo d * 86400 + (h * 3600 + mi * 60 + s)) / 86400 =
        daysFromCivil y mo d by omega]
  rw [show (daysFromCivil y mo d * 86400 + (h * 3600 + mi * 60 + s)) % 86400 / 3600 =
        h by omega]
  rw [show (daysFromCivil y mo d * 86400 + (h * 3600 + mi * 60 + s)) % 3600 / 60 =
        mi by omega]
  rw [show (daysFromCivil y mo d * 86400 + (h * 3600 + mi * 60 + s)) % 60 = s by omega]
  rw [hcd]

/-- Timestamp codec round-trip: decoding the encoded epoch seconds of any
accepted ISO-8601 timestamp reproduces the timestamp truncated to second
precision (first 19 characters, with a zero millisecond fraction). -/
theorem decode_encode_timestamp (t : List Char) (dt : DT) (h : parseISO t = some dt) :
    decodeTimestamp (dtToEpoch dt) = t.take 19 ++ ['.', '0', '0', '0', 'Z'] := by
  unfold parseISO at h
  split at h
  next y1 y2 y3 y4 m1 m2 dd1 dd2 hh1 hh2 n1 n2 s1 s2 rest =>
    split at h
    next y mo d hh mi ss hy hmo hd hhh hmi hss =>
      split at h
      · rename_i hc
        injection h with h
        subst h
        obtain ⟨hc1, hc2, hc3, hc4, hc5, hc6, hc7, hc8, hc9, _⟩ := hc
        obtain ⟨hp4, _⟩ := pad4_d4 y1 y2 y3 y4 y hy
        obtain ⟨hpmo, _⟩ := pad2_d2 m1 m2 mo hmo
        obtain ⟨hpd, _⟩ := pad2_d2 dd1 dd2 d hd
        obtain ⟨hphh, _⟩ := pad2_d2 hh1 hh2 hh hhh
        obtain ⟨hpmi, _⟩ := pad2_d2 n1 n2 mi hmi
        obtain ⟨hpss, _⟩ := pad2_d2 s1 s2 ss hss
        rw [decodeTimestamp_dtToEpoch y mo d hh mi ss ⟨hc1, hc2, hc3, hc4, hc5, hc6⟩
          hc7 hc8 hc9]
        rw [fmtDT, hp4, hpmo, hpd, hphh, hpmi, hpss]
        rfl
      · exact absurd h (by simp)
    next => exact absurd h (by simp)
  next => exact absurd h (by simp)

/-! ### Base64 (model of `new Buffer(..).toString(base64)`) -/

/-- The base64 alphabet. -/
def b64Alphabet : List Char :=
  ['A', 'B', 'C', 'D', 'E', 'F', 'G', 'H', 'I', 'J', 'K', 'L', 'M', 'N', 'O', 'P',
   'Q', 'R', 'S', 'T', 'U', 'V', 'W', 'X', 'Y', 'Z', 'a', 'b', 'c', 'd', 'e', 'f',
   'g', 'h', 'i', 'j', 'k', 'l', 'm', 'n', 'o', 'p', 'q', 'r', 's', 't', 'u', 'v',
   'w', 'x', 'y', 'z', '0', '1', '2', '3', '4', '5', '6', '7', '8', '9', '+', '/']

/-- Character of a 6-bit group. -/
def b64Char (n : Nat) : Char := b64Alphabet.getD n '='

def b64IndexAux : List Char → Nat → Char → Option Nat
  | [], _, _ => none
  | a :: rest, i, c => if a = c then some i else b64IndexAux rest (i + 1) c

/-- Index of a character in the base64 alphabet. -/
def b64Index (c : Char) : Option Nat := b64IndexAux b64Alphabet 0 c

theorem b64Index_b64Char : ∀ n < 64, b64Index (b64Char n) = some n := by decide

theorem b64Char_ne_pad : ∀ n < 64, b64Char n ≠ '=' := by decide

/-- Base64 text of a byte sequence (RFC 4648 with padding), the model of
`Buffer.prototype.toString(base64)`. -/
def b64encode : List Nat → List Char
  | [] => []
  | [b1] => [b64Char (b1 / 4), b64Char (b1 % 4 * 16), '=', '=']
  | [b1, b2] =>
    [b64Char (b1 / 4), b64Char (b1 % 4 * 16 + b2 / 16), b64Char (b2 % 16 * 4), '=']
  | b1 :: b2 :: b3 :: rest =>
    b64Char (b1 / 4) :: b64Char (b1 % 4 * 16 + b2 / 16) ::
      b64Char (b2 % 16 * 4 + b3 / 64) :: b64Char (b3 % 64) :: b64encode rest

/-- Modelled from the spec: `decodeVersion(token) → etag` is the inverse,
reversible base64 text decoding of `encodeVersion`; the repository's own
code never decodes a version token, so the decoder follows the spec's
description of the codec as reversible base64. -/
def b64decode : List Char → Option (List Nat)
  | [] => some []
  | c1 :: c2 :: c3 :: c4 :: rest =>
    match b64Index c1, b64Index c2 with
    | some i, some j =>
      if c3 = '=' ∧ c4 = '=' ∧ rest = [] then
        if j % 16 = 0 then some [i * 4 + j / 16] else none
      else if c4 = '=' ∧ rest = [] then
        match b64Index c3 with
        | some k => if k % 4 = 0 then some [i * 4 + j / 16, j % 16 * 16 + k / 4] else none
        | none => none
      else
        match b64Index c3, b64Index c4, b64decode rest with
        | some k, some l, some bs =>
          some ((i * 4 + j / 16) :: (j % 16 * 16 + k / 4) :: (k % 4 * 64 + l) :: bs)
        | _, _, _ => none
    | _, _ => none
  | _ => none

theorem b64_roundtrip_bounded :
    ∀ n (bs : List Nat), bs.length ≤ n → (∀ b ∈ bs, b < 256) →
      b64decode (b64encode bs) = some bs := by
  intro n
  induction n with
  | zero =>
    intro bs hlen _
    have : bs = [] := List.eq_nil_of_length_eq_zero (by omega)
    subst this; rfl
  | succ n ih =>
    intro bs hlen hB
    match bs with
    | [] => rfl
    | [b1] =>
      have hb1 : b1 < 256 := hB b1 (by simp)
      rw [b64encode, b64decode]
      rw [b64Index_b64Char (b1 / 4) (by omega), b64Index_b64Char (b1 % 4 * 16) (by omega)]
      simp only [and_self, if_pos, if_true, and_true]
      rw [if_pos (by omega : b1 % 4 * 16 % 16 = 0)]
      congr 1
      rw [show b1 / 4 * 4 + b1 % 4 * 16 / 16 = b1 by omega]
    | [b1, b2] =>
      have hb1 : b1 < 256 := hB b1 (by simp)
      have hb2 : b2 < 256 := hB b2 (by simp)
      rw [b64encode, b64decode]
      rw [b64Index_b64Char (b1 / 4) (by omega),
        b64Index_b64Char (b1 % 4 * 16 + b2 / 16) (by omega)]
      simp only
      rw [if_neg (by exact fun hc => b64Char_ne_pad (b2 % 16 * 4) (by omega) hc.1)]
      rw [if_pos (by simp)]
      rw [b64Index_b64Char (b2 % 16 * 4) (by omega)]
      simp only
      rw [if_pos (by omega : b2 % 16 * 4 % 4 = 0)]
      congr 1
      rw [show b1 / 4 * 4 + (b1 % 4 * 16 + b2 / 16) / 16 = b1 by omega]
      rw [show (b1 % 4 * 16 + b2 / 16) % 16 * 16 + b2 % 16 * 4 / 4 = b2 by omega]
    | b1 :: b2 :: b3 :: rest =>
      have hb1 : b1 < 256 := hB b1 (by simp)
      have hb2 : b2 < 256 := hB b2 (by simp)
      have hb3 : b3 < 256 := hB b3 (by simp)
      have hrest : b64decode (b64encode rest) = some rest := by
        apply ih rest (by simp at hlen; omega)
        intro b hb; exact hB b (by simp [hb])
      match rest with
      | [] =>
        rw [show b64encode [b1, b2, b3] = [b64Char (b1 / 4),
          b64Char (b1 % 4 * 16 + b2 / 16), b64Char (b2 % 16 * 4 + b3 / 64),
          b64Char (b3 % 64)] from rfl, b64decode]
        rw [b64Index_b64Char (b1 / 4) (by omega),
          b64Index_b64Char (b1 % 4 * 16 + b2 / 16) (by omega)]
        simp only
        rw [if_neg (by exact fun hc => b64Char_ne_pad (b2 % 16 * 4 + b3 / 64) (by omega) hc.1)]
        rw [if_neg (by exact fun hc => b64Char_ne_pad (b3 % 64) (by omega) hc.1)]
        rw [b64Index_b64Char (b2 % 16 * 4 + b3 / 64) (by omega),
          b64Index_b64Char (b3 % 64) (by omega)]
        rw [show b64decode [] = some [] from rfl]
        simp only
        congr 1
        rw [show b1 / 4 * 4 + (b1 % 4 * 16 + b2 / 16) / 16 = b1 by omega]
        rw [show (b1 % 4 * 16 + b2 / 16) % 16 * 16 + (b2 % 16 * 4 + b3 / 64) / 4 = b2 by omega]
        rw [show (b2 % 16 * 4 + b3 / 64) % 4 * 64 + b3 % 64 = b3 by omega]
      | r1 :: rest' =>
        rw [b64encode, b64decode]
        rw [b64Index_b64Char (b1 / 4) (by omega),
          b64Index_b64Char (b1 % 4 * 16 + b2 / 16) (by omega)]
        simp only
        rw [if_neg (by exact fun hc => b64Char_ne_pad (b2 % 16 * 4 + b3 / 64) (by omega) hc.1)]
        rw [if_neg (by exact fun hc => b64Char_ne_pad (b3 % 64) (by omega) hc.1)]
        rw [b64Index_b64Char (b2 % 16 * 4 + b3 / 64) (by omega),
          b64Index_b64Char (b3 % 64) (by omega), hrest]
        simp only
        congr 1
        rw [show b1 / 4 * 4 + (b1 % 4 * 16 + b2 / 16) / 16 = b1 by omega]
        rw [show (b1 % 4 * 16 + b2 / 16) % 16 * 16 + (b2 % 16 * 4 + b3 / 64) / 4 = b2 by omega]
        rw [show (b2 % 16 * 4 + b3 / 64) % 4 * 64 + b3 % 64 = b3 by omega]

/-- `encodeVersion`: base64 text of an etag, over the etag byte sequence
handed to `new Buffer(..)`. -/
def encodeVersion (bytes : List Nat) : List Char := b64encode bytes

/-- Modelled from the spec: `decodeVersion(token) → etag`, the inverse of
`encodeVersion` (fails on malformed input); no decoder exists in src/. -/
def decodeVersion (token : List Char) : Option (List Nat) := b64decode token

/-- Byte sequence of an etag string (DocumentDB etags are ASCII GUID text,
so code points are exactly the buffer's bytes). -/
def strBytes (s : String) : List Nat := s.toList.map (fun c => c.toNat)

/-- The version string computed by `convertItem`:
`new Buffer(etag).toString(base64)`. -/
def encodeVersionStr (s : String) : String := String.mk (b64encode (strBytes s))

/-! ### The table controller (src/todoitem/index.js, final revision)

Store calls (`driver.fetchDocument`, `driver.replaceDocument`,
`driver.createDocument`) are external I/O: each handler is modelled as a
function of the fetched document (an `Option JDoc`, `none` = absent) that
returns either a terminal response or the replace call it issues. -/

/-- `moment.unix(v).toISOString()` applied to a field value (a non-numeric
`_ts` renders as moment's invalid date, which no claim exercises). -/
def momentUnixIso : JVal → JVal
  | .num n => .str (String.mk (decodeTimestamp n))
  | _ => .str "Invalid date"

/-- `new Buffer(v).toString(base64)` applied to a field value (a
non-string `_etag` yields buffer garbage, which no claim exercises). -/
def bufferB64 : JVal → JVal
  | .str s => .str (encodeVersionStr s)
  | _ => .str ""

/-- `if (obj.hasOwnProperty(k)) delete obj.k`. -/
def condDel (d : JDoc) (k : String) : JDoc :=
  if (docGet d k).isSome then docDel d k else d

/-- `convertItem` (lines 438-459): maps a DocumentDB document to a public
item, mutating the document in place (the returned object is the caller's
object; this model threads the sequence of mutations: set `updatedAt`,
delete `_ts`, set `version`, delete `_etag`, then conditionally delete
`_rid`, `_self`, `_attachments`). -/
def convertItem (item : JDoc) : Except String JDoc :=
  match docGet item "_ts" with
  | none => .error "Invalid item - no _ts field"
  | some tsv =>
    match docGet (docDel (docSet item "updatedAt" (momentUnixIso tsv)) "_ts") "_etag" with
    | none => .error "Invalid item - no _etag field"
    | some etv =>
      .ok (condDel (condDel (condDel
        (docDel (docSet (docDel (docSet item "updatedAt" (momentUnixIso tsv)) "_ts")
          "version" (bufferB64 etv)) "_etag") "_rid") "_self") "_attachments")

/-- A JSON response body. -/
inductive RespBody where
  | item (d : JDoc)
  | err (msg : String)
  deriving DecidableEq

/-- Outcome of a handler that may issue a store replace: a terminal
response, a `replaceDocument(link, doc)` call, or an uncaught exception
(`convertItem` or `new Buffer` threw). -/
inductive WriteStep where
  | terminal (status : Nat) (body : RespBody)
  | storeReplace (link : Option String) (doc : JDoc)
  | malformed (msg : String)
  deriving DecidableEq

/-- Outcome of `getOneItem`. -/
inductive GetStep where
  | respond (status : Nat) (body : RespBody)
  | malformed (msg : String)
  deriving DecidableEq

/-- `document._self` passed as a document link (`none` = `undefined`). -/
def selfLink (d : JDoc) : Option String :=
  match docGet d "_self" with
  | some (.str s) => some s
  | _ => none

/-- `req.headers.hasOwnProperty(name)`. -/
def hasHeader (hs : List (String × String)) (k : String) : Bool :=
  hs.any (fun p => p.1 == k)

/-- `req.header[name]`: `req.header` is Express's header-getter function,
so this property access reads off the function object and is always
`undefined` — the header LIST is never consulted.  (The code meant
`req.headers[name]`.) -/
def reqHeaderProp (_hs : List (String × String)) (_k : String) : Option String := none

/-- `getOneItem` (lines 324-335). -/
def getOneItem (fetched : Option JDoc) : GetStep :=
  match fetched with
  | none => .respond 404 (.err "Not Found")
  | some document =>
    if docGet document "deleted" = some (.bool true) then .respond 404 (.err "Not Found")
    else
      match convertItem document with
      | .ok it => .respond 200 (.item it)
      | .error e => .malformed e

/-- `insertItem` (lines 355-370): the document handed to
`driver.createDocument` for a request body, with `now` the current time
rendered by `moment().toISOString()`. -/
def insertItem (now : String) (body : JDoc) : JDoc :=
  let item := docSet body "createdAt" (.str now)
  let item := docDel item "updatedAt"
  let item := docDel item "version"
  if (docGet item "deleted").isSome then item else docSet item "deleted" (.bool false)

/-- `replaceItem` (lines 372-408): handles `PUT` with path id `id`,
request headers `headers` and body `body`, given the fetched document. -/
def replaceItem (id : String) (headers : List (String × String)) (body : JDoc)
    (fetched : Option JDoc) : WriteStep :=
  match fetched with
  | none => .terminal 404 (.err "Not Found")
  | some document =>
    match docGet document "_etag" with
    | some (.str etag) =>
      if docGet body "id" ≠ some (.str id) then
        .terminal 400 (.err "Id does not match")
      else if hasHeader headers "if-match" &&
          (reqHeaderProp headers "if-match" != some (encodeVersionStr etag)) then
        match convertItem document with
        | .ok cur => .terminal 412 (.item cur)
        | .error e => .malformed e
      else if (match docGet body "version" with
          | some v => v != .str (encodeVersionStr etag)
          | none => false) then
        match convertItem document with
        | .ok cur => .terminal 409 (.item cur)
        | .error e => .malformed e
      else
        .storeReplace (selfLink document) (docDel (docDel body "updatedAt") "version")
    | _ => .malformed "TypeError in new Buffer(document._etag)"

/-- `deleteItem` (lines 410-431): `convertItem` mutates the shared
`document` object, so the later `document._self` read and the replace
payload both see the converted object. -/
def deleteItem (fetched : Option JDoc) : WriteStep :=
  match fetched with
  | none => .terminal 404 (.err "Not Found")
  | some document =>
    match convertItem document with
    | .error e => .malformed e
    | .ok converted =>
      let item := docDel converted "updatedAt"
      let item := docDel item "version"
      let item := docSet item "deleted" (.bool true)
      .storeReplace (selfLink item) item

/-! ### Characterization of `convertItem` -/

theorem docGet_condDel_same (d : JDoc) (k : String) :
    docGet (condDel d k) k = none := by
  unfold condDel
  split
  · exact docGet_docDel_same d k
  · rename_i h
    cases hh : docGet d k with
    | none => rfl
    | some v => rw [hh] at h; simp at h

theorem docGet_condDel_other (d : JDoc) (k k' : String) (h : k' ≠ k) :
    docGet (condDel d k) k' = docGet d k' := by
  unfold condDel
  split
  · exact docGet_docDel_other d k k' h
  · rfl

/-- The fields `convertItem` owns: the five DocumentDB metadata fields it
removes and the two public fields it sets. -/
def metaKeys : List String :=
  ["_ts", "_etag", "_rid", "_self", "_attachments", "updatedAt", "version"]

theorem convertItem_ok (d : JDoc) (tsv etv : JVal)
    (hts : docGet d "_ts" = some tsv) (het : docGet d "_etag" = some etv) :
    convertItem d = .ok (condDel (condDel (condDel
        (docDel (docSet (docDel (docSet d "updatedAt" (momentUnixIso tsv)) "_ts")
          "version" (bufferB64 etv)) "_etag") "_rid") "_self") "_attachments") := by
  have h2 : docGet (docDel (docSet d "updatedAt" (momentUnixIso tsv)) "_ts") "_etag"
      = some etv := by
    rw [docGet_docDel_other _ _ _ (by decide), docGet_docSet_other _ _ _ _ (by decide), het]
  unfold convertItem
  simp only [hts, h2]

theorem convertItem_fields (d : JDoc) (tsv etv : JVal) (d' : JDoc)
    (hts : docGet d "_ts" = some tsv) (het : docGet d "_etag" = some etv)
    (hok : convertItem d = .ok d') :
    docGet d' "updatedAt" = some (momentUnixIso tsv) ∧
    docGet d' "version" = some (bufferB64 etv) ∧
    docGet d' "_ts" = none ∧ docGet d' "_etag" = none ∧ docGet d' "_rid" = none ∧
    docGet d' "_self" = none ∧ docGet d' "_attachments" = none ∧
    (∀ k, k ∉ metaKeys → docGet d' k = docGet d k) := by
  rw [convertItem_ok d tsv etv hts het] at hok
  injection hok with hok
  subst hok
  refine ⟨?_, ?_, ?_, ?_, ?_, ?_, ?_, ?_⟩
  · rw [docGet_condDel_other _ _ _ (by decide), docGet_condDel_other _ _ _ (by decide),
      docGet_condDel_other _ _ _ (by decide), docGet_docDel_other _ _ _ (by decide),
      docGet_docSet_other _ _ _ _ (by decide), docGet_docDel_other _ _ _ (by decide),
      docGet_docSet_same]
  · rw [docGet_condDel_other _ _ _ (by decide), docGet_condDel_other _ _ _ (by decide),
      docGet_condDel_other _ _ _ (by decide), docGet_docDel_other _ _ _ (by decide),
      docGet_docSet_same]
  · rw [docGet_condDel_other _ _ _ (by decide), docGet_condDel_other _ _ _ (by decide),
      docGet_condDel_other _ _ _ (by decide), docGet_docDel_other _ _ _ (by decide),
      docGet_docSet_other _ _ _ _ (by decide), docGet_docDel_same]
  · rw [docGet_condDel_other _ _ _ (by decide), docGet_condDel_other _ _ _ (by decide),
      docGet_condDel_other _ _ _ (by decide), docGet_docDel_same]
  · rw [docGet_condDel_other _ _ _ (by decide), docGet_condDel_other _ _ _ (by decide),
      docGet_condDel_same]
  · rw [docGet_condDel_other _ _ _ (by decide), docGet_condDel_same]
  · rw [docGet_condDel_same]
  · intro k hk
    simp only [metaKeys, List.mem_cons, List.not_mem_nil, or_false] at hk
    push_neg at hk
    obtain ⟨h1, h2, h3, h4, h5, h6, h7⟩ := hk
    rw [docGet_condDel_other _ _ _ h5, docGet_condDel_other _ _ _ h4,
      docGet_condDel_other _ _ _ h3, docGet_docDel_other _ _ _ h2,
      docGet_docSet_other _ _ _ _ h7, docGet_docDel_other _ _ _ h1,
      docGet_docSet_other _ _ _ _ h6]

theorem convertItem_requires (d d' : JDoc) (h : convertItem d = .ok d') :
    (docGet d "_ts").isSome ∧ (docGet d "_etag").isSome := by
  unfold convertItem at h
  cases hts : docGet d "_ts" with
  | none => simp [hts] at h
  | some tsv =>
    simp only [hts] at h
    cases het : docGet (docDel (docSet d "updatedAt" (momentUnixIso tsv)) "_ts") "_etag" with
    | none => simp [het] at h
    | some etv =>
      rw [docGet_docDel_other _ _ _ (by decide),
        docGet_docSet_other _ _ _ _ (by decide)] at het
      simp [hts, het]

theorem convertItem_no_etag (d : JDoc) (h : docGet d "_etag" = none) :
    ∃ msg, convertItem d = .error msg := by
  cases hts : docGet d "_ts" with
  | none =>
    refine ⟨"Invalid item - no _ts field", ?_⟩
    unfold convertItem
    rw [hts]
  | some tsv =>
    have h2 : docGet (docDel (docSet d "updatedAt" (momentUnixIso tsv)) "_ts") "_etag"
        = none := by
      rw [docGet_docDel_other _ _ _ (by decide),
        docGet_docSet_other _ _ _ _ (by decide), h]
    refine ⟨"Invalid item - no _etag field", ?_⟩
    unfold convertItem
    simp only [hts, h2]

theorem selfLink_none (d : JDoc) (h : docGet d "_self" = none) : selfLink d = none := by
  unfold selfLink
  rw [h]

/-- C1: mapping a store document to a public item (`convertItem`) requires
`_ts` and `_etag` (otherwise it fails); on success it sets `updatedAt` to
the ISO-8601 rendering of `_ts`, sets `version` to the base64 encoding of
`_etag`, removes `_ts`, `_etag`, `_rid`, `_self`, `_attachments` when
present, and leaves every other field unchanged; and every document
lacking `_etag` fails mapping with the malformed-document error. -/
theorem C1_convertItem_mapping :
    (∀ (d : JDoc) (n : Nat) (e : String),
      docGet d "_ts" = some (.num n) → docGet d "_etag" = some (.str e) →
      ∃ d', convertItem d = .ok d' ∧
        docGet d' "updatedAt" = some (.str (String.mk (decodeTimestamp n))) ∧
        docGet d' "version" = some (.str (encodeVersionStr e)) ∧
        docGet d' "_ts" = none ∧ docGet d' "_etag" = none ∧ docGet d' "_rid" = none ∧
        docGet d' "_self" = none ∧ docGet d' "_attachments" = none ∧
        ∀ k, k ∉ metaKeys → docGet d' k = docGet d k) ∧
    (∀ d d' : JDoc, convertItem d = .ok d' →
      (docGet d "_ts").isSome ∧ (docGet d "_etag").isSome) ∧
    (∀ d : JDoc, docGet d "_etag" = none → ∃ msg, convertItem d = .error msg) := by
  refine ⟨?_, convertItem_requires, convertItem_no_etag⟩
  intro d n e hts het
  refine ⟨_, convertItem_ok d (.num n) (.str e) hts het, ?_⟩
  have hf := convertItem_fields d (.num n) (.str e) _ hts het
    (convertItem_ok d (.num n) (.str e) hts het)
  simpa [momentUnixIso, bufferB64] using hf

theorem C1_witness :
    (∃ d', convertItem [("id", JVal.str "1"), ("_ts", JVal.num 1500000000),
        ("_etag", JVal.str "abc")] = .ok d' ∧
      docGet d' "updatedAt" = some (.str (String.mk (decodeTimestamp 1500000000))) ∧
      docGet d' "version" = some (.str (encodeVersionStr "abc")) ∧
      docGet d' "_ts" = none ∧ docGet d' "_etag" = none ∧ docGet d' "_rid" = none ∧
      docGet d' "_self" = none ∧ docGet d' "_attachments" = none ∧
      ∀ k, k ∉ metaKeys →
        docGet d' k = docGet [("id", JVal.str "1"), ("_ts", JVal.num 1500000000),
          ("_etag", JVal.str "abc")] k) ∧
    (∃ msg, convertItem [("id", JVal.str "1"), ("_ts", JVal.num 1500000000)]
      = .error msg) :=
  ⟨C1_convertItem_mapping.1 _ 1500000000 "abc" rfl rfl,
   C1_convertItem_mapping.2.2 _ rfl⟩

/-- C5: deleting an existing item replaces the stored document with
`deleted = true` merged onto the existing fields (a replace, not a
physical removal), preserving every field other than the
metadata-derived ones; and `getOneItem` answers 404 for any fetched
document with `deleted = true`. -/
theorem C5_soft_delete :
    (∀ (document : JDoc) (n : Nat) (e : String),
      docGet document "_ts" = some (.num n) → docGet document "_etag" = some (.str e) →
      ∃ link newDoc, deleteItem (some document) = .storeReplace link newDoc ∧
        docGet newDoc "deleted" = some (.bool true) ∧
        ∀ k, k ∉ metaKeys → k ≠ "deleted" → docGet newDoc k = docGet document k) ∧
    (∀ d : JDoc, docGet d "deleted" = some (.bool true) →
      getOneItem (some d) = .respond 404 (.err "Not Found")) := by
  constructor
  · intro document n e hts het
    obtain ⟨d', hconv⟩ : ∃ d', convertItem document = .ok d' :=
      ⟨_, convertItem_ok document (.num n) (.str e) hts het⟩
    have hf := convertItem_fields document (.num n) (.str e) d' hts het hconv
    refine ⟨selfLink (docSet (docDel (docDel d' "updatedAt") "version") "deleted"
        (.bool true)),
      docSet (docDel (docDel d' "updatedAt") "version") "deleted" (.bool true),
      ?_, ?_, ?_⟩
    · simp only [deleteItem, hconv]
    · exact docGet_docSet_same _ _ _
    · intro k hk hk2
      have hne : k ≠ "updatedAt" ∧ k ≠ "version" := by
        simp only [metaKeys, List.mem_cons, List.not_mem_nil, or_false] at hk
        push_neg at hk
        exact ⟨hk.2.2.2.2.2.1, hk.2.2.2.2.2.2⟩
      rw [docGet_docSet_other _ _ _ _ hk2, docGet_docDel_other _ _ _ hne.2,
        docGet_docDel_other _ _ _ hne.1]
      exact hf.2.2.2.2.2.2.2 k hk
  · intro d h
    simp only [getOneItem, h]
    simp

theorem C5_witness :
    (∃ link newDoc,
      deleteItem (some [("id", JVal.str "1"), ("title", JVal.str "t"),
        ("_ts", JVal.num 1500000000), ("_etag", JVal.str "abc"),
        ("_self", JVal.str "link")]) = .storeReplace link newDoc ∧
      docGet newDoc "deleted" = some (.bool true) ∧
      ∀ k, k ∉ metaKeys → k ≠ "deleted" →
        docGet newDoc k = docGet [("id", JVal.str "1"), ("title", JVal.str "t"),
          ("_ts", JVal.num 1500000000), ("_etag", JVal.str "abc"),
          ("_self", JVal.str "link")] k) ∧
    getOneItem (some [("id", JVal.str "1"), ("deleted", JVal.bool true)])
      = .respond 404 (.err "Not Found") :=
  ⟨C5_soft_delete.1 _ 1500000000 "abc" rfl rfl, C5_soft_delete.2 _ rfl⟩

/-- C10: `convertItem` mutates and returns the caller's object, deleting
the metadata fields from it; consequently, on the delete path the
`document._self` read after `convertItem(document)` sees the mutated
object, and the document link passed to `replaceDocument` is undefined
even though the fetched document carried a `_self`. -/
theorem C10_delete_link_undefined :
    ∀ (document : JDoc) (n : Nat) (e s : String),
      docGet document "_ts" = some (.num n) → docGet document "_etag" = some (.str e) →
      docGet document "_self" = some (.str s) →
      (∃ d', convertItem document = .ok d' ∧ docGet d' "_ts" = none ∧
        docGet d' "_etag" = none ∧ docGet d' "_rid" = none ∧
        docGet d' "_self" = none ∧ docGet d' "_attachments" = none) ∧
      ∃ newDoc, deleteItem (some document) = .storeReplace none newDoc := by
  intro document n e s hts het hself
  obtain ⟨d', hconv⟩ : ∃ d', convertItem document = .ok d' :=
    ⟨_, convertItem_ok document (.num n) (.str e) hts het⟩
  have hf := convertItem_fields document (.num n) (.str e) d' hts het hconv
  constructor
  · exact ⟨_, hconv, hf.2.2.1, hf.2.2.2.1, hf.2.2.2.2.1, hf.2.2.2.2.2.1,
      hf.2.2.2.2.2.2.1⟩
  · refine ⟨docSet (docDel (docDel d' "updatedAt") "version") "deleted" (.bool true), ?_⟩
    simp only [deleteItem, hconv]
    congr 1
    apply selfLink_none
    rw [docGet_docSet_other _ _ _ _ (by decide), docGet_docDel_other _ _ _ (by decide),
      docGet_docDel_other _ _ _ (by decide)]
    exact hf.2.2.2.2.2.1

theorem C10_witness :
    (∃ d', convertItem [("id", JVal.str "1"), ("_ts", JVal.num 1500000000),
        ("_etag", JVal.str "abc"), ("_self", JVal.str "dbs/x/colls/y/docs/z")]
        = .ok d' ∧
      docGet d' "_ts" = none ∧ docGet d' "_etag" = none ∧ docGet d' "_rid" = none ∧
      docGet d' "_self" = none ∧ docGet d' "_attachments" = none) ∧
    ∃ newDoc, deleteItem (some [("id", JVal.str "1"), ("_ts", JVal.num 1500000000),
        ("_etag", JVal.str "abc"), ("_self", JVal.str "dbs/x/colls/y/docs/z")])
      = .storeReplace none newDoc :=
  C10_delete_link_undefined _ 1500000000 "abc" "dbs/x/colls/y/docs/z" rfl rfl rfl

/-- C2 counterexample: a PUT whose body carries a mismatching `version`
AND a body `id` different from the path id ends 400, not 409, so "every
replace request whose body version differs ends in Conflict" fails as
stated. -/
theorem C2_counterexample :
    replaceItem "1" [] [("id", JVal.str "2"), ("version", JVal.str "WRONG")]
      (some [("id", JVal.str "1"), ("title", JVal.str "t"),
        ("createdAt", JVal.str "A"), ("_ts", JVal.num 1500000000),
        ("_etag", JVal.str "abc"), ("_self", JVal.str "link")])
      = .terminal 400 (.err "Id does not match") ∧
    replaceItem "1" [] [("id", JVal.str "2"), ("version", JVal.str "WRONG")]
      (some [("id", JVal.str "1"), ("title", JVal.str "t"),
        ("createdAt", JVal.str "A"), ("_ts", JVal.num 1500000000),
        ("_etag", JVal.str "abc"), ("_self", JVal.str "link")])
      ≠ .terminal 409 (.item [("id", JVal.str "1"), ("title", JVal.str "t"),
        ("createdAt", JVal.str "A"),
        ("updatedAt", JVal.str "2017-07-14T02:40:00.000Z"),
        ("version", JVal.str "YWJj")]) := by
  constructor
  · decide
  · decide

/-- C2 (amended): provided the fetched document exists with a string
`_etag`, the body `id` equals the path id, and no `if-match` header is
supplied, a body `version` differing from the derived version ends in a
terminal 409 carrying the current (converted) item with no replace
issued, and a body with no `version` field proceeds unconditionally to
the replace. -/
theorem C2_version_conflict :
    ∀ (id : String) (headers : List (String × String)) (body document : JDoc)
      (n : Nat) (e : String),
      docGet document "_ts" = some (.num n) →
      docGet document "_etag" = some (.str e) →
      docGet body "id" = some (.str id) →
      hasHeader headers "if-match" = false →
      (∀ v, docGet body "version" = some v → v ≠ .str (encodeVersionStr e) →
        ∃ cur, convertItem document = .ok cur ∧
          replaceItem id headers body (some document) = .terminal 409 (.item cur)) ∧
      (docGet body "version" = none →
        replaceItem id headers body (some document)
          = .storeReplace (selfLink document)
              (docDel (docDel body "updatedAt") "version")) := by
  intro id headers body document n e hts het hid hhdr
  obtain ⟨d', hconv⟩ : ∃ d', convertItem document = .ok d' :=
    ⟨_, convertItem_ok document (.num n) (.str e) hts het⟩
  constructor
  · intro v hv hne
    refine ⟨d', hconv, ?_⟩
    simp only [replaceItem, het]
    rw [if_neg (by simp [hid])]
    rw [if_neg (by simp [hhdr])]
    rw [if_pos (by simp only [hv, bne_iff_ne, ne_eq]; simpa using hne)]
    simp only [hconv]
  · intro hv
    simp only [replaceItem, het]
    rw [if_neg (by simp [hid])]
    rw [if_neg (by simp [hhdr])]
    rw [if_neg (by simp [hv])]

theorem C2_witness :
    (∃ cur, convertItem [("id", JVal.str "1"), ("_ts", JVal.num 1500000000),
        ("_etag", JVal.str "abc"), ("_self", JVal.str "link")] = .ok cur ∧
      replaceItem "1" [] [("id", JVal.str "1"), ("version", JVal.str "WRONG")]
        (some [("id", JVal.str "1"), ("_ts", JVal.num 1500000000),
          ("_etag", JVal.str "abc"), ("_self", JVal.str "link")])
        = .terminal 409 (.item cur)) ∧
    replaceItem "1" [] [("id", JVal.str "1"), ("title", JVal.str "t")]
      (some [("id", JVal.str "1"), ("_ts", JVal.num 1500000000),
        ("_etag", JVal.str "abc"), ("_self", JVal.str "link")])
      = .storeReplace
          (selfLink [("id", JVal.str "1"), ("_ts", JVal.num 1500000000),
            ("_etag", JVal.str "abc"), ("_self", JVal.str "link")])
          (docDel (docDel [("id", JVal.str "1"), ("title", JVal.str "t")]
            "updatedAt") "version") :=
  ⟨(C2_version_conflict "1" [] [("id", JVal.str "1"), ("version", JVal.str "WRONG")]
      [("id", JVal.str "1"), ("_ts", JVal.num 1500000000),
        ("_etag", JVal.str "abc"), ("_self", JVal.str "link")]
      1500000000 "abc" rfl rfl rfl rfl).1 (JVal.str "WRONG") rfl (by decide),
   (C2_version_conflict "1" [] [("id", JVal.str "1"), ("title", JVal.str "t")]
      [("id", JVal.str "1"), ("_ts", JVal.num 1500000000),
        ("_etag", JVal.str "abc"), ("_self", JVal.str "link")]
      1500000000 "abc" rfl rfl rfl rfl).2 rfl⟩

/-- C3 (code evaluation at the failing input): the precondition check
reads `req.header[..]` — a property of Express's header-getter function,
hence `undefined` — instead of `req.headers[..]`, so a PUT carrying an
`if-match` header exactly equal to the current version (base64 of `_etag`
`abc` is `YWJj`) is still answered with terminal 412 instead of
proceeding with the replace. -/
theorem C3_ifmatch_always_412 :
    encodeVersionStr "abc" = "YWJj" ∧
    replaceItem "1" [("if-match", "YWJj")] [("id", JVal.str "1")]
      (some [("id", JVal.str "1"), ("title", JVal.str "t"),
        ("_ts", JVal.num 1500000000), ("_etag", JVal.str "abc"),
        ("_self", JVal.str "link")])
      = .terminal 412 (.item [("id", JVal.str "1"), ("title", JVal.str "t"),
        ("updatedAt", JVal.str "2017-07-14T02:40:00.000Z"),
        ("version", JVal.str "YWJj")]) := by
  constructor
  · decide
  · decide

/-- C4 counterexample: on the update (PUT) path a fetched document with
`deleted = true` does NOT end in 404 — the replace is issued anyway. -/
theorem C4_counterexample :
    replaceItem "1" [] [("id", JVal.str "1")]
      (some [("id", JVal.str "1"), ("deleted", JVal.bool true),
        ("_ts", JVal.num 1500000000), ("_etag", JVal.str "abc"),
        ("_self", JVal.str "link")])
      = .storeReplace (some "link") [("id", JVal.str "1")] ∧
    replaceItem "1" [] [("id", JVal.str "1")]
      (some [("id", JVal.str "1"), ("deleted", JVal.bool true),
        ("_ts", JVal.num 1500000000), ("_etag", JVal.str "abc"),
        ("_self", JVal.str "link")])
      ≠ .terminal 404 (.err "Not Found") := by
  constructor
  · decide
  · decide

/-- C4 (amended): on both the update and the delete path, the Not-Found
response arises exactly when the fetched document is absent; a present
document with `deleted = true` is tolerated on both paths. -/
theorem C4_notfound_iff_absent :
    (∀ (id : String) (headers : List (String × String)) (body : JDoc)
      (fetched : Option JDoc),
      replaceItem id headers body fetched = .terminal 404 (.err "Not Found") ↔
        fetched = none) ∧
    (∀ fetched : Option JDoc,
      deleteItem fetched = .terminal 404 (.err "Not Found") ↔ fetched = none) := by
  constructor
  · intro id headers body fetched
    cases fetched with
    | none => simp [replaceItem]
    | some document =>
      simp only [replaceItem]
      constructor
      · intro h
        exfalso
        cases het : docGet document "_etag" with
        | none => simp only [het] at h; simp at h
        | some v =>
          cases v with
          | str etag =>
            simp only [het] at h
            split_ifs at h with h1 h2 h3 <;>
              first
                | simp at h
                | (cases hc : convertItem document <;> rw [hc] at h <;> simp at h)
          | num m => simp only [het] at h; simp at h
          | bool b => simp only [het] at h; simp at h
      · intro h; simp at h
  · intro fetched
    cases fetched with
    | none => simp [deleteItem]
    | some document =>
      simp only [deleteItem]
      constructor
      · intro h
        exfalso
        cases hc : convertItem document <;> rw [hc] at h <;> simp at h
      · intro h; simp at h

/-- C8 (code evaluation at the failing input): `insertItem` only defaults
`deleted` when the field is ABSENT (`!item.hasOwnProperty`); a
non-boolean `deleted` (here the number 5) is kept as supplied, not
replaced by `false` as the claim (and the earlier revision's own comment
"set to false if it is not provided or is not boolean") requires.  The
rest of the mapping behaves as claimed: `createdAt` is set to the current
time and client-supplied `updatedAt`/`version` are removed. -/
theorem C8_insert_nonboolean_deleted_kept :
    insertItem "2026-01-01T00:00:00.000Z"
      [("id", JVal.str "x"), ("title", JVal.str "t"), ("deleted", JVal.num 5),
        ("updatedAt", JVal.str "u"), ("version", JVal.str "v")]
      = [("id", JVal.str "x"), ("title", JVal.str "t"), ("deleted", JVal.num 5),
         ("createdAt", JVal.str "2026-01-01T00:00:00.000Z")] ∧
    docGet (insertItem "2026-01-01T00:00:00.000Z"
      [("id", JVal.str "x"), ("title", JVal.str "t"), ("deleted", JVal.num 5),
        ("updatedAt", JVal.str "u"), ("version", JVal.str "v")]) "deleted"
      = some (JVal.num 5) ∧
    some (JVal.num 5) ≠ some (JVal.bool false) ∧
    insertItem "2026-01-01T00:00:00.000Z" [("id", JVal.str "x"), ("title", JVal.str "t")]
      = [("id", JVal.str "x"), ("title", JVal.str "t"),
         ("createdAt", JVal.str "2026-01-01T00:00:00.000Z"),
         ("deleted", JVal.bool false)] := by
  refine ⟨by decide, by decide, by decide, by decide⟩

/-- C9 counterexample: the replace path hands the request body (minus
`updatedAt`/`version`) to the store, so a body-supplied `createdAt` of
"B" overwrites the stored item's original `createdAt` "A" — `createdAt`
is NOT preserved from the stored document. -/
theorem C9_counterexample :
    replaceItem "1" [] [("id", JVal.str "1"), ("createdAt", JVal.str "B"),
        ("title", JVal.str "u")]
      (some [("id", JVal.str "1"), ("title", JVal.str "t"),
        ("createdAt", JVal.str "A"), ("_ts", JVal.num 1500000000),
        ("_etag", JVal.str "abc"), ("_self", JVal.str "link")])
      = .storeReplace (some "link") [("id", JVal.str "1"),
        ("createdAt", JVal.str "B"), ("title", JVal.str "u")] ∧
    docGet [("id", JVal.str "1"), ("createdAt", JVal.str "B"), ("title", JVal.str "u")]
      "createdAt" = some (JVal.str "B") ∧
    docGet [("id", JVal.str "1"), ("title", JVal.str "t"), ("createdAt", JVal.str "A"),
      ("_ts", JVal.num 1500000000), ("_etag", JVal.str "abc"),
      ("_self", JVal.str "link")] "createdAt" = some (JVal.str "A") ∧
    (JVal.str "B") ≠ (JVal.str "A") := by
  refine ⟨by decide, by decide, by decide, by decide⟩

/-- C9 (amended): on a replace that passes the concurrency checks, the
document handed to the store's replace call is the request body with
`updatedAt` and `version` removed; in particular its `createdAt` is
whatever the request body supplies (the stored item's `createdAt` is not
consulted, hence not preserved unless the body echoes it). -/
theorem C9_replace_payload_from_body :
    ∀ (id : String) (headers : List (String × String)) (body document : JDoc)
      (e : String),
      docGet document "_etag" = some (.str e) →
      docGet body "id" = some (.str id) →
      hasHeader headers "if-match" = false →
      (docGet body "version" = none ∨
        docGet body "version" = some (.str (encodeVersionStr e))) →
      replaceItem id headers body (some document)
        = .storeReplace (selfLink document)
            (docDel (docDel body "updatedAt") "version") ∧
      ∀ k, k ≠ "updatedAt" → k ≠ "version" →
        docGet (docDel (docDel body "updatedAt") "version") k = docGet body k := by
  intro id headers body document e het hid hhdr hv
  constructor
  · simp only [replaceItem, het]
    rw [if_neg (by simp [hid])]
    rw [if_neg (by simp [hhdr])]
    rcases hv with hv | hv
    · rw [if_neg (by simp [hv])]
    · rw [if_neg (by simp [hv])]
  · intro k hku hkv
    rw [docGet_docDel_other _ _ _ hkv, docGet_docDel_other _ _ _ hku]

theorem C9_witness :
    replaceItem "1" [] [("id", JVal.str "1"), ("createdAt", JVal.str "B")]
      (some [("id", JVal.str "1"), ("createdAt", JVal.str "A"),
        ("_ts", JVal.num 1500000000), ("_etag", JVal.str "abc"),
        ("_self", JVal.str "link")])
      = .storeReplace
          (selfLink [("id", JVal.str "1"), ("createdAt", JVal.str "A"),
            ("_ts", JVal.num 1500000000), ("_etag", JVal.str "abc"),
            ("_self", JVal.str "link")])
          (docDel (docDel [("id", JVal.str "1"), ("createdAt", JVal.str "B")]
            "updatedAt") "version") ∧
    ∀ k, k ≠ "updatedAt" → k ≠ "version" →
      docGet (docDel (docDel [("id", JVal.str "1"), ("createdAt", JVal.str "B")]
        "updatedAt") "version") k
        = docGet [("id", JVal.str "1"), ("createdAt", JVal.str "B")] k :=
  C9_replace_payload_from_body "1" [] [("id", JVal.str "1"), ("createdAt", JVal.str "B")]
    [("id", JVal.str "1"), ("createdAt", JVal.str "A"), ("_ts", JVal.num 1500000000),
      ("_etag", JVal.str "abc"), ("_self", JVal.str "link")]
    "abc" rfl rfl rfl (Or.inl rfl)

/-- C7: the field codecs round-trip.  Timestamps: for every ISO-8601
timestamp accepted by the (UTC, 1970-9999) parser, decoding the encoded
epoch seconds (`moment.unix(moment(t).unix()).toISOString()`) yields the
timestamp truncated to second precision (its first 19 characters with a
zero millisecond fraction).  Versions: for every etag byte sequence,
decoding the base64 version token produced by `encodeVersion` yields the
etag again. -/
theorem C7_codec_roundtrip :
    (∀ (t : List Char) (n : Nat), encodeTimestamp t = some n →
      decodeTimestamp n = t.take 19 ++ ['.', '0', '0', '0', 'Z']) ∧
    (∀ e : List Nat, (∀ b ∈ e, b < 256) → decodeVersion (encodeVersion e) = some e) := by
  constructor
  · intro t n h
    unfold encodeTimestamp at h
    cases hp : parseISO t with
    | none => rw [hp] at h; simp at h
    | some dt =>
      rw [hp] at h
      simp at h
      subst h
      exact decode_encode_timestamp t dt hp
  · intro e hB
    exact b64_roundtrip_bounded e.length e le_rfl hB

theorem C7_witness :
    decodeTimestamp 1486094706
      = ("2017-02-03T04:05:06.789Z".toList.take 19) ++ ['.', '0', '0', '0', 'Z'] ∧
    decodeVersion (encodeVersion [97, 98, 99]) = some [97, 98, 99] :=
  ⟨C7_codec_roundtrip.1 "2017-02-03T04:05:06.789Z".toList 1486094706 (by decide),
   C7_codec_roundtrip.2 [97, 98, 99] (by decide)⟩

/-! ### The `$filter` rewrite loop (src/unnamed/part_000, lines 16-25)

`while (/updatedAt [a-z]+ '[^']+'/.test(f)) { m = exec(f); f =
f.replace(m[0], tsClause) }`.  The regex has no usable backtracking
(shortening the greedy `[a-z]+` or `[^']+` runs can never help), so a
match at a position is: the literal text `updatedAt `, the maximal
lowercase run followed by a space and a quote, then the maximal
quote-free run followed by a quote; `exec` finds the leftmost such
position, and `replace` with the matched TEXT replaces at that same
position (an earlier occurrence of the text would itself be an earlier
match).  The loop is modelled with fuel `s.length`, an upper bound on the
iteration count (each iteration consumes one `updatedAt` clause, and a
clause is longer than one character). -/

/-- The characters of the public field name `updatedAt`. -/
def uaStr : List Char := ['u', 'p', 'd', 'a', 't', 'e', 'd', 'A', 't']

/-- The single-quote character. -/
def quoteChar : Char := Char.ofNat 39

/-- The regex class `[a-z]`. -/
def isLowerAlpha (c : Char) : Bool := decide ('a' ≤ c) && decide (c ≤ 'z')

/-- The regex class `[^']`. -/
def notQuote (c : Char) : Bool := c != quoteChar

/-- Strip an expected literal text, returning the remainder. -/
def stripPref : List Char → List Char → Option (List Char)
  | [], s => some s
  | _ :: _, [] => none
  | p :: ps, c :: cs => if p = c then stripPref ps cs else none

/-- Match the pattern `updatedAt ([a-z]+) '([^']+)'` at the head of the
string, returning the operator, the literal, and the remainder. -/
def matchClause (s : List Char) : Option (List Char × List Char × List Char) :=
  match stripPref (uaStr ++ [' ']) s with
  | none => none
  | some r0 =>
    if (r0.takeWhile isLowerAlpha).isEmpty then none
    else
      match stripPref [' ', quoteChar] (r0.drop (r0.takeWhile isLowerAlpha).length) with
      | none => none
      | some r1 =>
        if (r1.takeWhile notQuote).isEmpty then none
        else
          match stripPref [quoteChar] (r1.drop (r1.takeWhile notQuote).length) with
          | none => none
          | some r2 => some (r0.takeWhile isLowerAlpha, r1.takeWhile notQuote, r2)

/-- Leftmost match of the pattern: the text before it, the operator, the
literal, and the text after it. -/
def findMatch : List Char → Option (List Char × List Char × List Char × List Char)
  | [] => none
  | c :: cs =>
    match matchClause (c :: cs) with
    | some (op, lit, rest) => some ([], op, lit, rest)
    | none =>
      match findMatch cs with
      | some (pre, op, lit, rest) => some (c :: pre, op, lit, rest)
      | none => none

/-- Decimal digits of `n` (most significant first), fuel-bounded. -/
def natDigits : Nat → Nat → List Char
  | 0, _ => []
  | fuel + 1, n =>
    if n < 10 then [digitChar n] else natDigits fuel (n / 10) ++ [digitChar (n % 10)]

/-- Decimal rendering of a natural number (the template interpolation of
the computed epoch seconds). -/
def natStr (n : Nat) : List Char := natDigits (n + 1) n

/-- `moment(lit).unix()` interpolated into the replacement text: the epoch
seconds in decimal, or `NaN` for an unparseable literal. -/
def epochStr (lit : List Char) : List Char :=
  match encodeTimestamp lit with
  | some n => natStr n
  | none => ['N', 'a', 'N']

/-- The replacement text `` `_ts ${op} ${epoch}` ``. -/
def tsClause (op lit : List Char) : List Char :=
  '_' :: 't' :: 's' :: ' ' :: (op ++ ' ' :: epochStr lit)

/-- One `replace` step: substitute the leftmost match. -/
def rewriteOnce (s : List Char) : Option (List Char) :=
  match findMatch s with
  | some (pre, op, lit, rest) => some (pre ++ tsClause op lit ++ rest)
  | none => none

/-- The `while` loop, fuel-bounded. -/
def rewriteFilter : Nat → List Char → List Char
  | 0, s => s
  | fuel + 1, s =>
    match rewriteOnce s with
    | none => s
    | some t => rewriteFilter fuel t

/-- The full filter rewrite handed to the query compiler. -/
def translateFilter (s : List Char) : List Char := rewriteFilter s.length s

/-- An `updatedAt <op> '<literal>'` clause. -/
structure UAClause where
  op : List Char
  lit : List Char

/-- The clause's source text. -/
def clauseStr (c : UAClause) : List Char :=
  uaStr ++ ' ' :: (c.op ++ ' ' :: quoteChar :: (c.lit ++ [quoteChar]))

/-- A well-formed clause: non-empty lowercase operator, non-empty
quote-free literal that parses as an ISO-8601 datetime. -/
def goodClause (c : UAClause) : Prop :=
  c.op ≠ [] ∧ c.op.all isLowerAlpha = true ∧ c.lit ≠ [] ∧
  (∀ ch ∈ c.lit, notQuote ch = true) ∧ (parseISO c.lit).isSome = true

instance (c : UAClause) : Decidable (goodClause c) := by
  unfold goodClause
  infer_instance

/-- A filter string as segments interleaved with `updatedAt` clauses. -/
def assemble : List Char → List (UAClause × List Char) → List Char
  | s0, [] => s0
  | s0, (c, s) :: rest => s0 ++ (clauseStr c ++ assemble s rest)

/-- The same filter with every clause rewritten to its `_ts` form. -/
def assembleRw : List Char → List (UAClause × List Char) → List Char
  | s0, [] => s0
  | s0, (c, s) :: rest => s0 ++ (tsClause c.op c.lit ++ assembleRw s rest)

/-- Does the text contain the literal `p` as a prefix? -/
def startsL : List Char → List Char → Bool
  | [], _ => true
  | _ :: _, [] => false
  | p :: ps, c :: cs => p == c && startsL ps cs

/-- Does the text contain `u` as a contiguous substring? -/
def subOcc (u : List Char) : List Char → Bool
  | [] => u.isEmpty
  | c :: cs => startsL u (c :: cs) || subOcc u cs

theorem stripPref_iff (p : List Char) :
    ∀ s r, stripPref p s = some r ↔ s = p ++ r := by
  induction p with
  | nil =>
    intro s r
    simp [stripPref]
  | cons a ps ih =>
    intro s r
    cases s with
    | nil => simp [stripPref]
    | cons c cs =>
      unfold stripPref
      by_cases h : a = c
      · subst h
        simp only [if_pos rfl, List.cons_append, List.cons.injEq, true_and]
        exact ih cs r
      · simp only [if_neg h, List.cons_append]
        constructor
        · intro hh; simp at hh
        · intro hh
          injection hh with h1 _
          exact absurd h1.symm h

theorem stripPref_append (p r : List Char) : stripPref p (p ++ r) = some r :=
  (stripPref_iff p (p ++ r) r).mpr rfl

theorem startsL_iff (p : List Char) :
    ∀ s, startsL p s = true ↔ ∃ r, s = p ++ r := by
  induction p with
  | nil => intro s; simp [startsL]
  | cons a ps ih =>
    intro s
    cases s with
    | nil => simp [startsL]
    | cons c cs =>
      unfold startsL
      simp only [Bool.and_eq_true, beq_iff_eq]
      constructor
      · rintro ⟨h1, h2⟩
        subst h1
        obtain ⟨r, hr⟩ := (ih cs).mp h2
        exact ⟨r, by rw [hr]; rfl⟩
      · rintro ⟨r, hr⟩
        injection hr with h1 h2
        exact ⟨h1.symm, (ih cs).mpr ⟨r, h2⟩⟩

theorem subOcc_exists (u : List Char) :
    ∀ s, subOcc u s = true ↔ ∃ a b, s = a ++ u ++ b := by
  intro s
  induction s with
  | nil =>
    simp only [subOcc, List.isEmpty_iff]
    constructor
    · intro h; exact ⟨[], [], by simp [h]⟩
    · rintro ⟨a, b, hab⟩
      have hl := congrArg List.length hab
      simp at hl
      exact List.eq_nil_of_length_eq_zero (by omega)
  | cons c cs ih =>
    unfold subOcc
    simp only [Bool.or_eq_true]
    constructor
    · rintro (h | h)
      · obtain ⟨r, hr⟩ := (startsL_iff u _).mp h
        exact ⟨[], r, by simp [hr]⟩
      · obtain ⟨a, b, hab⟩ := ih.mp h
        exact ⟨c :: a, b, by simp [hab]⟩
    · rintro ⟨a, b, hab⟩
      cases a with
      | nil =>
        left
        exact (startsL_iff u _).mpr ⟨b, by simpa using hab⟩
      | cons a0 as =>
        right
        injection hab with h1 h2
        exact ih.mpr ⟨as, b, by simpa using h2⟩

theorem subOcc_of_startsL (u s : List Char) (h : startsL u s = true) :
    subOcc u s = true := by
  obtain ⟨r, hr⟩ := (startsL_iff u s).mp h
  exact (subOcc_exists u s).mpr ⟨[], r, by simp [hr]⟩

theorem subOcc_cons_false (u : List Char) (c : Char) (cs : List Char)
    (h : subOcc u (c :: cs) = false) : subOcc u cs = false := by
  unfold subOcc at h
  simp only [Bool.or_eq_false_iff] at h
  exact h.2

theorem subOcc_mem (u s : List Char) (h : subOcc u s = true) :
    ∀ c ∈ u, c ∈ s := by
  obtain ⟨a, b, hab⟩ := (subOcc_exists u s).mp h
  intro c hc
  rw [hab]
  simp [hc]

theorem takeWhile_all_stop (p : Char → Bool) :
    ∀ (xs : List Char) (y : Char) (ys : List Char),
      (∀ c ∈ xs, p c = true) → p y = false →
      (xs ++ y :: ys).takeWhile p = xs := by
  intro xs
  induction xs with
  | nil => intro y ys _ hy; simp [List.takeWhile, hy]
  | cons x xs ih =>
    intro y ys hall hy
    have hx : p x = true := hall x (by simp)
    simp only [List.cons_append, List.takeWhile, hx, List.append_eq]
    rw [ih y ys (fun c hc => hall c (by simp [hc])) hy]

theorem matchClause_clause (c : UAClause) (t : List Char) (hc : goodClause c) :
    matchClause (clauseStr c ++ t) = some (c.op, c.lit, t) := by
  obtain ⟨hop, hopl, hlit, hlitq, _⟩ := hc
  have h0 : clauseStr c ++ t
      = (uaStr ++ [' ']) ++ (c.op ++ ([' ', quoteChar] ++ (c.lit ++ ([quoteChar] ++ t)))) := by
    simp [clauseStr]
  unfold matchClause
  rw [h0]
  simp only [stripPref_append]
  have htw : (c.op ++ ([' ', quoteChar] ++ (c.lit ++ ([quoteChar] ++ t)))).takeWhile
      isLowerAlpha = c.op := by
    have e : c.op ++ ([' ', quoteChar] ++ (c.lit ++ ([quoteChar] ++ t)))
        = c.op ++ ' ' :: (quoteChar :: (c.lit ++ ([quoteChar] ++ t))) := rfl
    rw [e]
    exact takeWhile_all_stop _ _ _ _ (fun x hx => List.all_eq_true.mp hopl x hx) (by decide)
  rw [htw]
  rw [if_neg (by simp [List.isEmpty_iff, hop])]
  rw [List.drop_left]
  simp only [stripPref_append]
  have htw2 : (c.lit ++ ([quoteChar] ++ t)).takeWhile notQuote = c.lit := by
    have e : c.lit ++ ([quoteChar] ++ t) = c.lit ++ quoteChar :: t := rfl
    rw [e]
    exact takeWhile_all_stop _ _ _ _ (fun x hx => hlitq x hx) (by decide)
  rw [htw2]
  rw [if_neg (by simp [List.isEmpty_iff, hlit])]
  rw [List.drop_left]
  simp only [stripPref_append]

theorem stripPref_startsL (u v s r : List Char) (h : stripPref (u ++ v) s = some r) :
    startsL u s = true := by
  have hs := (stripPref_iff (u ++ v) s r).mp h
  exact (startsL_iff u s).mpr ⟨v ++ r, by rw [hs]; simp⟩

theorem uaStr_no_border : ∀ k, 1 ≤ k → k < 9 → uaStr.drop k ≠ uaStr.take (9 - k) := by
  decide

theorem take_append_le {α : Type} (a b : List α) (n : Nat) (h : n ≤ a.length) :
    (a ++ b).take n = a.take n := by
  rw [List.take_append_eq_append_take]
  rw [show n - a.length = 0 by omega]
  simp

theorem startsL_in_seg_false (x w : List Char) (hx : x ≠ [])
    (hocc : subOcc uaStr x = false) :
    startsL uaStr (x ++ (uaStr ++ w)) = false := by
  cases hsl : startsL uaStr (x ++ (uaStr ++ w)) with
  | false => rfl
  | true =>
    exfalso
    obtain ⟨r, hr⟩ := (startsL_iff uaStr _).mp hsl
    by_cases hlen : 9 ≤ x.length
    · have htake : (x ++ (uaStr ++ w)).take 9 = x.take 9 := take_append_le _ _ 9 hlen
      have htake2 : (uaStr ++ r).take 9 = uaStr := by
        rw [take_append_le uaStr r 9 (by decide)]
        decide
      rw [hr, htake2] at htake
      have hxocc : subOcc uaStr x = true := by
        refine (subOcc_exists uaStr x).mpr ⟨[], x.drop 9, ?_⟩
        rw [htake]
        simp [List.take_append_drop]
      rw [hxocc] at hocc
      simp at hocc
    · have hk1 : 1 ≤ x.length := by
        cases x with
        | nil => exact absurd rfl hx
        | cons a as => simp
      have hk9 : x.length < 9 := by omega
      have htake : (x ++ (uaStr ++ w)).take 9 = x ++ uaStr.take (9 - x.length) := by
        rw [List.take_append_eq_append_take]
        rw [show x.take 9 = x from List.take_of_length_le (by omega)]
        rw [take_append_le uaStr w _
          (by simp only [uaStr, List.length_cons, List.length_nil]; omega)]
      have htake2 : (uaStr ++ r).take 9 = uaStr := by
        rw [take_append_le uaStr r 9 (by decide)]
        decide
      rw [hr, htake2] at htake
      have hdrop : uaStr.drop x.length = uaStr.take (9 - x.length) := by
        conv_lhs => rw [htake]
        rw [List.drop_left]
      exact uaStr_no_border x.length hk1 hk9 hdrop

theorem matchClause_in_seg (x w : List Char) (hx : x ≠ [])
    (hocc : subOcc uaStr x = false) :
    matchClause (x ++ (uaStr ++ w)) = none := by
  unfold matchClause
  cases hsp : stripPref (uaStr ++ [' ']) (x ++ (uaStr ++ w)) with
  | none => rfl
  | some r =>
    exfalso
    have := stripPref_startsL uaStr [' '] _ r hsp
    rw [startsL_in_seg_false x w hx hocc] at this
    simp at this

theorem matchClause_some_startsL (s : List Char) (r : List Char × List Char × List Char)
    (h : matchClause s = some r) : startsL uaStr s = true := by
  unfold matchClause at h
  cases hsp : stripPref (uaStr ++ [' ']) s with
  | none => rw [hsp] at h; simp at h
  | some r0 => exact stripPref_startsL uaStr [' '] s r0 hsp

theorem findMatch_none (s : List Char) (h : subOcc uaStr s = false) :
    findMatch s = none := by
  induction s with
  | nil => rfl
  | cons c cs ih =>
    have hmc : matchClause (c :: cs) = none := by
      cases hm : matchClause (c :: cs) with
      | none => rfl
      | some r =>
        exfalso
        have hsl := matchClause_some_startsL _ r hm
        have := subOcc_of_startsL uaStr (c :: cs) hsl
        rw [this] at h
        simp at h
    simp only [findMatch, hmc]
    rw [ih (subOcc_cons_false uaStr c cs h)]

theorem findMatch_seg (s0 : List Char) :
    ∀ (w op lit rest : List Char), subOcc uaStr s0 = false →
      matchClause (uaStr ++ w) = some (op, lit, rest) →
      findMatch (s0 ++ (uaStr ++ w)) = some (s0, op, lit, rest) := by
  induction s0 with
  | nil =>
    intro w op lit rest _ hm
    have e : ([] : List Char) ++ (uaStr ++ w)
        = 'u' :: (['p', 'd', 'a', 't', 'e', 'd', 'A', 't'] ++ w) := by simp [uaStr]
    rw [e]
    have e2 : ('u' :: (['p', 'd', 'a', 't', 'e', 'd', 'A', 't'] ++ w)) = uaStr ++ w := by
      simp [uaStr]
    simp only [findMatch, e2, hm]
  | cons a s0' ih =>
    intro w op lit rest hocc hm
    have e : (a :: s0') ++ (uaStr ++ w) = a :: (s0' ++ (uaStr ++ w)) := by simp
    rw [e]
    have hmc : matchClause (a :: (s0' ++ (uaStr ++ w))) = none := by
      have e2 : a :: (s0' ++ (uaStr ++ w)) = (a :: s0') ++ (uaStr ++ w) := by simp
      rw [e2]
      exact matchClause_in_seg (a :: s0') w (by simp) hocc
    simp only [findMatch, hmc]
    rw [ih w op lit rest (subOcc_cons_false uaStr a s0' hocc) hm]

theorem occ_append (u : List Char) :
    ∀ a b, subOcc u (a ++ b) = true →
      subOcc u a = true ∨ subOcc u b = true ∨
      ∃ x y, u = x ++ y ∧ x ≠ [] ∧ y ≠ [] ∧ (∃ p, a = p ++ x) ∧ ∃ r, b = y ++ r := by
  intro a
  induction a with
  | nil => intro b h; exact Or.inr (Or.inl (by simpa using h))
  | cons ch a' ih =>
    intro b h
    have h' : subOcc u (ch :: (a' ++ b)) = true := by simpa using h
    unfold subOcc at h'
    simp only [Bool.or_eq_true] at h'
    rcases h' with hs | hrec
    · obtain ⟨r, hr⟩ := (startsL_iff u _).mp hs
      by_cases hlen : u.length ≤ (ch :: a').length
      · left
        have htake : ((ch :: a') ++ b).take u.length = (ch :: a').take u.length :=
          take_append_le _ _ _ hlen
        have htake2 : (u ++ r).take u.length = u := by
          rw [take_append_le u r _ le_rfl, List.take_of_length_le le_rfl]
        have hr2 : (ch :: a') ++ b = u ++ r := by simpa using hr
        rw [hr2, htake2] at htake
        refine (subOcc_exists u _).mpr ⟨[], (ch :: a').drop u.length, ?_⟩
        conv_lhs => rw [← List.take_append_drop u.length (ch :: a')]
        rw [← htake]
        simp
      · right; right
        push_neg at hlen
        have hr2 : (ch :: a') ++ b = u ++ r := by simpa using hr
        have htake : (u ++ r).take u.length = u := by
          rw [take_append_le u r _ le_rfl, List.take_of_length_le le_rfl]
        have htake3 : ((ch :: a') ++ b).take u.length
            = (ch :: a') ++ b.take (u.length - (ch :: a').length) := by
          rw [List.take_append_eq_append_take,
            List.take_of_length_le (le_of_lt hlen)]
        rw [hr2, htake] at htake3
        have hlb : u.length ≤ (ch :: a').length + b.length := by
          have hlen2 := congrArg List.length hr2
          simp only [List.length_append] at hlen2
          omega
        refine ⟨ch :: a', b.take (u.length - (ch :: a').length), htake3, by simp, ?_,
          ⟨[], by simp⟩, ⟨b.drop (u.length - (ch :: a').length),
            (List.take_append_drop _ b).symm⟩⟩
        have hlt : (b.take (u.length - (ch :: a').length)).length
            = u.length - (ch :: a').length := by
          rw [List.length_take]
          omega
        intro hnil
        rw [hnil] at hlt
        simp only [List.length_nil] at hlt
        omega
    · rcases ih b hrec with hl | hm | ⟨x, y, hu, hx, hy, ⟨p, hp⟩, hbr⟩
      · left
        unfold subOcc
        rw [hl]
        simp
      · exact Or.inr (Or.inl hm)
      · exact Or.inr (Or.inr ⟨x, y, hu, hx, hy, ⟨ch :: p, by rw [hp]; rfl⟩, hbr⟩)

theorem noUA_append (a b : List Char) (ha : subOcc uaStr a = false)
    (hb : subOcc uaStr b = false)
    (hborder : ∀ k, 1 ≤ k → k < 9 →
      ¬((∃ p, a = p ++ uaStr.take k) ∧ ∃ r, b = uaStr.drop k ++ r)) :
    subOcc uaStr (a ++ b) = false := by
  cases hocc : subOcc uaStr (a ++ b) with
  | false => rfl
  | true =>
    exfalso
    rcases occ_append uaStr a b hocc with h | h | ⟨x, y, hu, hx, hy, hpa, ⟨r, hrb⟩⟩
    · rw [h] at ha; simp at ha
    · rw [h] at hb; simp at hb
    · have hxk : x = uaStr.take x.length := by
        conv_lhs => rw [show x = (x ++ y).take x.length by
          rw [take_append_le x y _ le_rfl, List.take_of_length_le le_rfl]]
        rw [← hu]
      have hyk : y = uaStr.drop x.length := by
        conv_lhs => rw [show y = (x ++ y).drop x.length from (List.drop_left x y).symm]
        rw [← hu]
      have hk1 : 1 ≤ x.length := by
        cases x with
        | nil => exact absurd rfl hx
        | cons c cs => simp
      have hk9 : x.length < 9 := by
        have hlu := congrArg List.length hu
        have hyl : 1 ≤ y.length := by
          cases y with
          | nil => exact absurd rfl hy
          | cons c cs => simp
        simp [uaStr] at hlu
        omega
      exact hborder x.length hk1 hk9
        ⟨(by rw [← hxk]; exact hpa), ⟨r, by rw [← hyk]; exact hrb⟩⟩

/-- The decimal digit characters. -/
def dChars : List Char := ['0', '1', '2', '3', '4', '5', '6', '7', '8', '9']

theorem digitChar_mem (m : Nat) : digitChar m ∈ dChars := by
  unfold digitChar
  split_ifs <;> decide

theorem natDigits_mem : ∀ fuel n c, c ∈ natDigits fuel n → c ∈ dChars := by
  intro fuel
  induction fuel with
  | zero => intro n c h; simp [natDigits] at h
  | succ fuel ih =>
    intro n c h
    unfold natDigits at h
    split at h
    · simp at h
      rw [h]
      exact digitChar_mem n
    · simp at h
      rcases h with h | h
      · exact ih (n / 10) c h
      · rw [h]; exact digitChar_mem (n % 10)

theorem natDigits_getLast (fuel n : Nat) (h : 0 < fuel) :
    ∃ c, (natDigits fuel n).getLast? = some c ∧ c ∈ dChars := by
  cases fuel with
  | zero => omega
  | succ fuel =>
    unfold natDigits
    split
    · exact ⟨digitChar n, rfl, digitChar_mem n⟩
    · exact ⟨digitChar (n % 10), List.getLast?_concat _, digitChar_mem (n % 10)⟩

theorem epochStr_mem (lit : List Char) (c : Char) (h : c ∈ epochStr lit) :
    c ∈ dChars ∨ c = 'N' ∨ c = 'a' := by
  unfold epochStr at h
  split at h
  · exact Or.inl (natDigits_mem _ _ c h)
  · simp at h
    rcases h with h | h | h
    · exact Or.inr (Or.inl h)
    · exact Or.inr (Or.inr h)
    · exact Or.inr (Or.inl h)

theorem epochStr_getLast (lit : List Char) :
    ∃ c, (epochStr lit).getLast? = some c ∧ (c ∈ dChars ∨ c = 'N') := by
  unfold epochStr
  split
  · obtain ⟨c, hc, hm⟩ := natDigits_getLast _ _ (by omega : 0 < _ + 1)
    exact ⟨c, hc, Or.inl hm⟩
  · exact ⟨'N', rfl, Or.inr rfl⟩

theorem getLast_append_right (l1 : List Char) :
    ∀ l2 : List Char, l2 ≠ [] → (l1 ++ l2).getLast? = l2.getLast? := by
  induction l1 with
  | nil => intro l2 _; simp
  | cons a l1 ih =>
    intro l2 h2
    have hne : l1 ++ l2 ≠ [] := by
      intro hc
      rcases List.append_eq_nil.mp hc with ⟨_, h⟩
      exact h2 h
    rw [List.cons_append]
    cases hc : l1 ++ l2 with
    | nil => exact absurd hc hne
    | cons b t =>
      rw [List.getLast?_cons_cons, ← hc]
      exact ih l2 h2

theorem head_append_left (l1 l2 : List Char) (h : l1 ≠ []) :
    (l1 ++ l2).head? = l1.head? := by
  cases l1 with
  | nil => exact absurd rfl h
  | cons a t => rfl

theorem tsClause_getLast (op lit : List Char) :
    ∃ c, (tsClause op lit).getLast? = some c ∧ (c ∈ dChars ∨ c = 'N') := by
  obtain ⟨c, hc, hm⟩ := epochStr_getLast lit
  refine ⟨c, ?_, hm⟩
  unfold tsClause
  have hne : epochStr lit ≠ [] := by
    intro h
    rw [h] at hc
    simp at hc
  have h1 : (op ++ ' ' :: epochStr lit).getLast? = (epochStr lit).getLast? := by
    rw [getLast_append_right op (' ' :: epochStr lit) (by simp)]
    cases he : epochStr lit with
    | nil => exact absurd he hne
    | cons b t => rw [List.getLast?_cons_cons]
  have h2 : ('_' :: 't' :: 's' :: ' ' :: (op ++ ' ' :: epochStr lit)).getLast?
      = (op ++ ' ' :: epochStr lit).getLast? := by
    have hne2 : op ++ ' ' :: epochStr lit ≠ [] := by
      intro hcon
      rcases List.append_eq_nil.mp hcon with ⟨_, h⟩
      simp at h
    cases ho : op ++ ' ' :: epochStr lit with
    | nil => exact absurd ho hne2
    | cons b t =>
      rw [List.getLast?_cons_cons, List.getLast?_cons_cons, List.getLast?_cons_cons,
        List.getLast?_cons_cons]
  rw [h2, h1, hc]

theorem uaStr_take_getLast : ∀ k, 1 ≤ k → k < 9 →
    (uaStr.take k).getLast? ∈ ([some 'u', some 'p', some 'd', some 'a', some 't',
      some 'e', some 'A'] : List (Option Char)) := by
  decide

theorem uaStr_drop_head : ∀ k, 1 ≤ k → k < 9 →
    (uaStr.drop k).head? ≠ some '_' := by
  decide

theorem dChars_not_uaLetter : ∀ c ∈ dChars,
    (some c : Option Char) ∉ ([some 'u', some 'p', some 'd', some 'a', some 't',
      some 'e', some 'A'] : List (Option Char)) := by
  decide

theorem noUA_tsClause (op lit : List Char) (hopl : op.all isLowerAlpha = true) :
    subOcc uaStr (tsClause op lit) = false := by
  cases hocc : subOcc uaStr (tsClause op lit) with
  | false => rfl
  | true =>
    exfalso
    have hA : 'A' ∈ tsClause op lit := subOcc_mem _ _ hocc 'A' (by decide)
    unfold tsClause at hA
    simp only [List.mem_cons, List.mem_append] at hA
    rcases hA with h | h | h | h | h | h
    · exact absurd h (by decide)
    · exact absurd h (by decide)
    · exact absurd h (by decide)
    · exact absurd h (by decide)
    · have := List.all_eq_true.mp hopl 'A' h
      exact absurd this (by decide)
    · rcases h with h | h
      · exact absurd h (by decide)
      · rcases epochStr_mem lit 'A' h with h | h | h
        · exact absurd h (by decide)
        · exact absurd h (by decide)
        · exact absurd h (by decide)

theorem uaStr_take_ne_nil (k : Nat) (hk1 : 1 ≤ k) : uaStr.take k ≠ [] := by
  intro h0
  have hl := congrArg List.length h0
  rw [List.length_take] at hl
  simp only [uaStr, List.length_cons, List.length_nil, List.length_nil] at hl
  omega

theorem uaStr_drop_ne_nil (k : Nat) (hk9 : k < 9) : uaStr.drop k ≠ [] := by
  intro h0
  have hl := congrArg List.length h0
  rw [List.length_drop] at hl
  simp only [uaStr, List.length_cons, List.length_nil] at hl
  omega

theorem noUA_rw_seg (op lit s1 : List Char) (hopl : op.all isLowerAlpha = true)
    (hs1 : subOcc uaStr s1 = false) :
    subOcc uaStr (tsClause op lit ++ s1) = false := by
  apply noUA_append _ _ (noUA_tsClause op lit hopl) hs1
  rintro k hk1 hk9 ⟨⟨p, hp⟩, -⟩
  obtain ⟨c, hc, hm⟩ := tsClause_getLast op lit
  rw [hp, getLast_append_right p _ (uaStr_take_ne_nil k hk1)] at hc
  have hmem := uaStr_take_getLast k hk1 hk9
  rw [hc] at hmem
  rcases hm with hd | hN
  · exact dChars_not_uaLetter c hd hmem
  · subst hN
    exact absurd hmem (by decide)

theorem noUA_seg_rw (s0 op lit s1 : List Char) (hs0 : subOcc uaStr s0 = false)
    (hopl : op.all isLowerAlpha = true) (hs1 : subOcc uaStr s1 = false) :
    subOcc uaStr (s0 ++ (tsClause op lit ++ s1)) = false := by
  apply noUA_append _ _ hs0 (noUA_rw_seg op lit s1 hopl hs1)
  rintro k hk1 hk9 ⟨-, ⟨r, hr⟩⟩
  have hh : (tsClause op lit ++ s1).head? = some '_' := by
    unfold tsClause
    rfl
  rw [hr, head_append_left _ _ (uaStr_drop_ne_nil k hk9)] at hh
  exact uaStr_drop_head k hk1 hk9 hh

theorem assemble_append (pairs : List (UAClause × List Char)) :
    ∀ a s, assemble (a ++ s) pairs = a ++ assemble s pairs := by
  induction pairs with
  | nil => intro a s; rfl
  | cons hd rest _ =>
    intro a s
    obtain ⟨c, s2⟩ := hd
    simp only [assemble, List.append_assoc]

theorem assembleRw_append (pairs : List (UAClause × List Char)) :
    ∀ a s, assembleRw (a ++ s) pairs = a ++ assembleRw s pairs := by
  induction pairs with
  | nil => intro a s; rfl
  | cons hd rest _ =>
    intro a s
    obtain ⟨c, s2⟩ := hd
    simp only [assembleRw, List.append_assoc]

theorem assemble_length (pairs : List (UAClause × List Char)) :
    ∀ s0, pairs.length ≤ (assemble s0 pairs).length := by
  induction pairs with
  | nil => intro s0; simp [assemble]
  | cons hd rest ih =>
    intro s0
    obtain ⟨c, s2⟩ := hd
    have hcl : 1 ≤ (clauseStr c).length := by
      simp only [clauseStr, uaStr, List.length_append, List.length_cons]
      omega
    have := ih s2
    simp only [assemble, List.length_append, List.length_cons]
    omega

theorem rewriteFilter_assemble :
    ∀ (pairs : List (UAClause × List Char)) (s0 : List Char) (fuel : Nat),
      subOcc uaStr s0 = false →
      (∀ p ∈ pairs, goodClause p.1 ∧ subOcc uaStr p.2 = false) →
      pairs.length ≤ fuel →
      rewriteFilter fuel (assemble s0 pairs) = assembleRw s0 pairs := by
  intro pairs
  induction pairs with
  | nil =>
    intro s0 fuel hs0 _ _
    have hfm : findMatch s0 = none := findMatch_none s0 hs0
    cases fuel with
    | zero => rfl
    | succ fuel =>
      show rewriteFilter (fuel + 1) s0 = s0
      simp [rewriteFilter, rewriteOnce, hfm]
  | cons hd rest ih =>
    intro s0 fuel hs0 hall hfuel
    obtain ⟨c, s1⟩ := hd
    cases fuel with
    | zero => simp at hfuel
    | succ fuel =>
      have hgc : goodClause c := (hall (c, s1) (by simp)).1
      have hgs1 : subOcc uaStr s1 = false := (hall (c, s1) (by simp)).2
      have hm0 : matchClause (clauseStr c ++ assemble s1 rest)
          = some (c.op, c.lit, assemble s1 rest) := matchClause_clause c _ hgc
      have hshape : clauseStr c ++ assemble s1 rest
          = uaStr ++ (' ' :: (c.op ++ ' ' :: quoteChar :: (c.lit ++ [quoteChar]))
              ++ assemble s1 rest) := by
        simp [clauseStr]
      rw [hshape] at hm0
      have hfm : findMatch (s0 ++ (clauseStr c ++ assemble s1 rest))
          = some (s0, c.op, c.lit, assemble s1 rest) := by
        rw [hshape]
        exact findMatch_seg s0 _ c.op c.lit (assemble s1 rest) hs0 hm0
      show rewriteFilter (fuel + 1) (s0 ++ (clauseStr c ++ assemble s1 rest))
          = s0 ++ (tsClause c.op c.lit ++ assembleRw s1 rest)
      simp only [rewriteFilter, rewriteOnce, hfm]
      have hre : s0 ++ tsClause c.op c.lit ++ assemble s1 rest
          = assemble (s0 ++ (tsClause c.op c.lit ++ s1)) rest := by
        rw [show s0 ++ (tsClause c.op c.lit ++ s1)
            = (s0 ++ tsClause c.op c.lit) ++ s1 from (List.append_assoc _ _ _).symm]
        rw [assemble_append rest (s0 ++ tsClause c.op c.lit) s1]
      rw [hre]
      rw [ih (s0 ++ (tsClause c.op c.lit ++ s1)) fuel
        (noUA_seg_rw s0 c.op c.lit s1 hs0 hgc.2.1 hgs1)
        (fun p hp => hall p (by simp [hp]))
        (by simp at hfuel; omega)]
      rw [show s0 ++ (tsClause c.op c.lit ++ s1)
          = (s0 ++ tsClause c.op c.lit) ++ s1 from (List.append_assoc _ _ _).symm]
      rw [assembleRw_append rest (s0 ++ tsClause c.op c.lit) s1]
      simp [List.append_assoc]

/-- C6: the filter rewrite loop rewrites every `updatedAt <op> '<lit>'`
clause of the `$filter` string into `_ts <op> <epoch>` before the filter
is handed to the query compiler: for a filter assembled from segments
(free of the text `updatedAt`) interleaved with well-formed clauses, the
loop's output is the same string with ALL clauses (however many)
replaced, and each replacement's numeric literal is the Unix epoch
seconds of the parsed ISO-8601 literal. -/
theorem C6_filter_rewrite :
    ∀ (pairs : List (UAClause × List Char)) (s0 : List Char),
      subOcc uaStr s0 = false →
      (∀ p ∈ pairs, goodClause p.1 ∧ subOcc uaStr p.2 = false) →
      translateFilter (assemble s0 pairs) = assembleRw s0 pairs ∧
      ∀ p ∈ pairs, ∃ dt, parseISO p.1.lit = some dt ∧
        tsClause p.1.op p.1.lit
          = '_' :: 't' :: 's' :: ' ' :: (p.1.op ++ ' ' :: natStr (dtToEpoch dt)) := by
  intro pairs s0 hs0 hall
  constructor
  · exact rewriteFilter_assemble pairs s0 (assemble s0 pairs).length hs0 hall
      (assemble_length pairs s0)
  · intro p hp
    obtain ⟨dt, hdt⟩ := Option.isSome_iff_exists.mp (hall p hp).1.2.2.2.2
    refine ⟨dt, hdt, ?_⟩
    unfold tsClause epochStr encodeTimestamp
    rw [hdt]
    rfl

theorem C6_witness :
    subOcc uaStr "complete eq true and ".toList = false ∧
    goodClause ⟨"ge".toList, "2017-02-03T00:00:00.000".toList⟩ ∧
    goodClause ⟨"le".toList, "2017-07-14T02:40:00.000Z".toList⟩ ∧
    translateFilter (assemble "complete eq true and ".toList
      [(⟨"ge".toList, "2017-02-03T00:00:00.000".toList⟩, " and ".toList),
       (⟨"le".toList, "2017-07-14T02:40:00.000Z".toList⟩, [])])
      = assembleRw "complete eq true and ".toList
        [(⟨"ge".toList, "2017-02-03T00:00:00.000".toList⟩, " and ".toList),
         (⟨"le".toList, "2017-07-14T02:40:00.000Z".toList⟩, [])] ∧
    assembleRw "complete eq true and ".toList
      [(⟨"ge".toList, "2017-02-03T00:00:00.000".toList⟩, " and ".toList),
       (⟨"le".toList, "2017-07-14T02:40:00.000Z".toList⟩, [])]
      = "complete eq true and _ts ge 1486080000 and _ts le 1500000000".toList := by
  refine ⟨by decide, by decide, by decide, ?_, by decide⟩
  exact (C6_filter_rewrite
    [(⟨"ge".toList, "2017-02-03T00:00:00.000".toList⟩, " and ".toList),
     (⟨"le".toList, "2017-07-14T02:40:00.000Z".toList⟩, [])]
    "complete eq true and ".toList (by decide)
    (by
      intro p hp
      simp only [List.mem_cons, List.not_mem_nil, or_false] at hp
      rcases hp with hp | hp <;> subst hp <;> exact ⟨by decide, by decide⟩)).1
